import Mathlib

set_option linter.unusedSectionVars false

/-!
# Verification of a concurrent, resizable chained hash set

Shallow embedding of the four strategy classes of the repository
(`hash_set_sequential.h`, `hash_set_coarse_grained.h`, `hash_set_striped.h`,
`hash_set_refinable.h`).  Each C++ class is modelled as a Lean structure whose
fields are the data members that carry sequential content (mutexes and lock
objects carry no data; for the refinable strategy the *number* of locks is
tracked, since the lock array grows).  The element type is a parameter `α`
with decidable equality, and `std::hash<T>` is a parameter `hash : α → Nat`;
`size_t` values are modelled as `Nat` (bucket indices are reduced `% capacity`
before use and the element count never approaches `2^64`, so machine-width
wraparound is unreachable in any state considered here).

Each public operation is translated statement-by-statement from its source.
For the lock-based strategies the sequential semantics of an operation is its
behaviour when it holds the locks it asks for; the lock acquisition events of
the two fine-grained `resize` functions are additionally modelled explicitly
as event traces, since one claim is about the lock discipline itself.
-/

namespace HashSetVerify

variable {α : Type} [DecidableEq α]

/-- `FindOrPushBack` (identical private helper in all four headers):
`std::find` the element in the bucket; if absent, `push_back` it and return
`true`, else return `false`.  Returned pair is (new bucket, result). -/
def FindOrPushBack (list : List α) (elem : α) : List α × Bool :=
  if elem ∈ list then (list, false) else (list ++ [elem], true)

/-- First-occurrence erasure, the effect of `list.erase(std::find(...))`. -/
def eraseFirst : List α → α → List α
  | [], _ => []
  | x :: xs, e => if x = e then xs else x :: eraseFirst xs e

/-- `FindAndErase` (identical private helper in all four headers):
`std::find` the element; if found, `erase` that occurrence and return `true`,
else return `false`.  Returned pair is (new bucket, result). -/
def FindAndErase (list : List α) (elem : α) : List α × Bool :=
  if elem ∈ list then (eraseFirst list elem, true) else (list, false)

/-- One step of the migration loop of the striped and refinable `resize`:
`table_[hash(elem) % new_capacity].push_back(elem)` with the new capacity as
an explicit modulus. -/
def rehashStep (hash : α → Nat) (modulus : Nat) (nt : List (List α)) (elem : α) :
    List (List α) :=
  nt.set (hash elem % modulus) (nt.getD (hash elem % modulus) [] ++ [elem])

/-- One step of the migration loop of the sequential and coarse-grained
`resize`: `table_[hash(elem) % table_.size()].push_back(elem)` — the modulus
is read from the new table itself. -/
def rehashStepCur (hash : α → Nat) (nt : List (List α)) (elem : α) :
    List (List α) :=
  nt.set (hash elem % nt.length) (nt.getD (hash elem % nt.length) [] ++ [elem])

/-! ## `HashSetSequential` (hash_set_sequential.h) -/

/-- Data members of `HashSetSequential`: `table_` and `size_`. -/
structure HashSetSequential (α : Type) where
  table_ : List (List α)
  size_ : Nat
deriving DecidableEq

namespace HashSetSequential

/-- `HashSetSequential(size_t capacity) : table_(capacity) {}` —
`capacity` empty buckets, `size_ = 0`. -/
def init (capacity : Nat) : HashSetSequential α :=
  { table_ := List.replicate capacity [], size_ := 0 }

/-- `bool policy() { return size_ / table_.size() > 4; }` (integer division). -/
def policy (s : HashSetSequential α) : Bool :=
  decide (s.size_ / s.table_.length > 4)

/-- `void resize()`: copy the old table, allocate `old_table.size() * 2` empty
buckets, then reinsert every element of every old bucket at
`hash(elem) % table_.size()` (the modulus is read from the new table). -/
def resize (hash : α → Nat) (s : HashSetSequential α) : HashSetSequential α :=
  let old_table := s.table_
  let new_capacity := old_table.length * 2
  { s with
    table_ := old_table.flatten.foldl (rehashStepCur hash)
      (List.replicate new_capacity []) }

/-- `bool Add(T elem)`: locate the bucket at `hash(elem) % table_.size()`,
`FindOrPushBack`, increment `size_` on success, then resize if `policy()`. -/
def Add (hash : α → Nat) (s : HashSetSequential α) (elem : α) :
    HashSetSequential α × Bool :=
  let bucket_idx := hash elem % s.table_.length
  let fp := FindOrPushBack (s.table_.getD bucket_idx []) elem
  let s1 : HashSetSequential α :=
    { table_ := s.table_.set bucket_idx fp.1,
      size_ := if fp.2 then s.size_ + 1 else s.size_ }
  if s1.policy then (s1.resize hash, fp.2) else (s1, fp.2)

/-- `bool Remove(T elem)`: locate the bucket, `FindAndErase`, decrement
`size_` on success. -/
def Remove (hash : α → Nat) (s : HashSetSequential α) (elem : α) :
    HashSetSequential α × Bool :=
  let bucket_idx := hash elem % s.table_.length
  let fe := FindAndErase (s.table_.getD bucket_idx []) elem
  ({ table_ := s.table_.set bucket_idx fe.1,
     size_ := if fe.2 then s.size_ - 1 else s.size_ }, fe.2)

/-- `bool Contains(T elem)`: locate the bucket and `std::find` in it.
The operation reads the state and returns only a boolean. -/
def Contains (hash : α → Nat) (s : HashSetSequential α) (elem : α) : Bool :=
  decide (elem ∈ s.table_.getD (hash elem % s.table_.length) [])

/-- `size_t Size() const { return size_; }` -/
def Size (s : HashSetSequential α) : Nat := s.size_

end HashSetSequential

/-! ## `HashSetCoarseGrained` (hash_set_coarse_grained.h)

One `std::mutex` guards every operation; the mutex carries no data, so the
sequential content of the state is again `table_` and the (atomic) `size_`. -/

structure HashSetCoarseGrained (α : Type) where
  table_ : List (List α)
  size_ : Nat
deriving DecidableEq

namespace HashSetCoarseGrained

/-- `HashSetCoarseGrained(size_t capacity) : table_(capacity) {}` -/
def init (capacity : Nat) : HashSetCoarseGrained α :=
  { table_ := List.replicate capacity [], size_ := 0 }

/-- `bool policy() { return size_.load() / table_.size() > 4; }` -/
def policy (s : HashSetCoarseGrained α) : Bool :=
  decide (s.size_ / s.table_.length > 4)

/-- `void resize()`: identical migration loop to the sequential class
(modulus `table_.size()`), executed with the global lock held. -/
def resize (hash : α → Nat) (s : HashSetCoarseGrained α) : HashSetCoarseGrained α :=
  let old_table := s.table_
  let new_capacity := old_table.length * 2
  { s with
    table_ := old_table.flatten.foldl (rehashStepCur hash)
      (List.replicate new_capacity []) }

/-- `bool Add(T elem)` under the scoped global lock: locate bucket,
`FindOrPushBack`, `size_.fetch_add(1)` if added, resize if `policy()`. -/
def Add (hash : α → Nat) (s : HashSetCoarseGrained α) (elem : α) :
    HashSetCoarseGrained α × Bool :=
  let bucket_idx := hash elem % s.table_.length
  let fp := FindOrPushBack (s.table_.getD bucket_idx []) elem
  let s1 : HashSetCoarseGrained α :=
    { table_ := s.table_.set bucket_idx fp.1,
      size_ := if fp.2 then s.size_ + 1 else s.size_ }
  if s1.policy then (s1.resize hash, fp.2) else (s1, fp.2)

/-- `bool Remove(T elem)` under the scoped global lock. -/
def Remove (hash : α → Nat) (s : HashSetCoarseGrained α) (elem : α) :
    HashSetCoarseGrained α × Bool :=
  let bucket_idx := hash elem % s.table_.length
  let fe := FindAndErase (s.table_.getD bucket_idx []) elem
  ({ table_ := s.table_.set bucket_idx fe.1,
     size_ := if fe.2 then s.size_ - 1 else s.size_ }, fe.2)

/-- `bool Contains(T elem)` under the scoped global lock; read-only. -/
def Contains (hash : α → Nat) (s : HashSetCoarseGrained α) (elem : α) : Bool :=
  decide (elem ∈ s.table_.getD (hash elem % s.table_.length) [])

/-- `size_t Size() const { return size_.load(); }` -/
def Size (s : HashSetCoarseGrained α) : Nat := s.size_

end HashSetCoarseGrained

/-! ## `HashSetStriped` (hash_set_striped.h)

`locks_` is a fixed array of `num_of_locks_` mutexes (set to the construction
capacity and never changed); the mutexes carry no data.  `capacity_` is an
atomic copy of the table's bucket count, and `table_`, `size_` are as before. -/

structure HashSetStriped (α : Type) where
  table_ : List (List α)
  size_ : Nat
  capacity_ : Nat
  num_of_locks_ : Nat
deriving DecidableEq

namespace HashSetStriped

/-- `HashSetStriped(size_t capacity) : table_(capacity), locks_(capacity),
capacity_(capacity), num_of_locks_(capacity) {}` -/
def init (capacity : Nat) : HashSetStriped α :=
  { table_ := List.replicate capacity [], size_ := 0,
    capacity_ := capacity, num_of_locks_ := capacity }

/-- `bool policy(size_t current_capacity)
{ return size_.load() / current_capacity > 4; }` -/
def policy (s : HashSetStriped α) (current_capacity : Nat) : Bool :=
  decide (s.size_ / current_capacity > 4)

/-- `void resize(size_t current_capacity)`: acquire all stripe locks in index
order, abort if `capacity_` changed since the caller's snapshot, else rebuild
into `capacity_.load() * 2` buckets (each element goes to
`hash(elem) % new_capacity`) and publish the new capacity. -/
def resize (hash : α → Nat) (s : HashSetStriped α) (current_capacity : Nat) :
    HashSetStriped α :=
  let old_capacity := current_capacity
  if old_capacity ≠ s.capacity_ then s
  else
    let new_capacity := s.capacity_ * 2
    { s with
      table_ := s.table_.flatten.foldl (rehashStep hash new_capacity)
        (List.replicate new_capacity []),
      capacity_ := new_capacity }

/-- `bool Add(T elem)` with the stripe lock `hash(elem) % num_of_locks_`
held: snapshot `capacity_`, locate bucket, `FindOrPushBack`,
`size_.fetch_add(1)` on success; return early on failure; on success, if
`policy(current_capacity)` holds, unlock and `resize(current_capacity)`. -/
def Add (hash : α → Nat) (s : HashSetStriped α) (elem : α) :
    HashSetStriped α × Bool :=
  let current_capacity := s.capacity_
  let bucket_idx := hash elem % current_capacity
  let fp := FindOrPushBack (s.table_.getD bucket_idx []) elem
  let s1 : HashSetStriped α :=
    { s with table_ := s.table_.set bucket_idx fp.1,
             size_ := if fp.2 then s.size_ + 1 else s.size_ }
  if !fp.2 then (s1, false)
  else if s1.policy current_capacity then (s1.resize hash current_capacity, true)
  else (s1, true)

/-- `bool Remove(T elem)` with the stripe lock held: snapshot `capacity_`,
locate bucket, `FindAndErase`, `size_.fetch_sub(1)` on success. -/
def Remove (hash : α → Nat) (s : HashSetStriped α) (elem : α) :
    HashSetStriped α × Bool :=
  let curr_capacity := s.capacity_
  let bucket_idx := hash elem % curr_capacity
  let fe := FindAndErase (s.table_.getD bucket_idx []) elem
  ({ s with table_ := s.table_.set bucket_idx fe.1,
            size_ := if fe.2 then s.size_ - 1 else s.size_ }, fe.2)

/-- `bool Contains(T elem)` with the stripe lock held; read-only. -/
def Contains (hash : α → Nat) (s : HashSetStriped α) (elem : α) : Bool :=
  decide (elem ∈ s.table_.getD (hash elem % s.capacity_) [])

/-- `size_t Size() const { return size_.load(); }` -/
def Size (s : HashSetStriped α) : Nat := s.size_

end HashSetStriped

/-! ## `HashSetRefinable` (hash_set_refinable.h)

`locks_` is a vector of per-bucket mutexes that grows with the table, so its
*length* is part of the state; the mutexes themselves carry no data.
`resizing_flag_` is the atomic resize-ownership flag.  Each public operation
runs a retry loop that, sequentially, exits on its first iteration exactly
when `resizing_flag_` is clear (the capacity re-read cannot differ in a
sequential execution); the definitions below give the state transition of an
operation from that successful exit on. -/

structure HashSetRefinable (α : Type) where
  table_ : List (List α)
  locks_ : Nat
  size_ : Nat
  capacity_ : Nat
  resizing_flag_ : Bool
deriving DecidableEq

namespace HashSetRefinable

/-- `HashSetRefinable(size_t capacity)`: `capacity` empty buckets, one fresh
mutex per bucket, `size_ = 0`, `capacity_ = capacity`, flag clear. -/
def init (capacity : Nat) : HashSetRefinable α :=
  { table_ := List.replicate capacity [], locks_ := capacity,
    size_ := 0, capacity_ := capacity, resizing_flag_ := false }

/-- `void resize(size_t old_capacity)`: compare-and-set the resizing flag
(lose → return unchanged); if `old_capacity != capacity_.load()`, clear the
flag and return; else lock-and-unlock every bucket lock in index order,
rebuild into `capacity_.load() * 2` buckets, push `old_capacity` fresh locks,
publish the new capacity, and clear the flag. -/
def resize (hash : α → Nat) (s : HashSetRefinable α) (old_capacity : Nat) :
    HashSetRefinable α :=
  if s.resizing_flag_ then s
  else
    let s0 : HashSetRefinable α := { s with resizing_flag_ := true }
    if old_capacity ≠ s0.capacity_ then { s0 with resizing_flag_ := false }
    else
      let new_capacity := s0.capacity_ * 2
      { table_ := s0.table_.flatten.foldl (rehashStep hash new_capacity)
          (List.replicate new_capacity []),
        locks_ := s0.locks_ + old_capacity,
        size_ := s0.size_,
        capacity_ := new_capacity,
        resizing_flag_ := false }

/-- `bool Add(T elem)` after the retry loop exits with the bucket lock held:
`FindOrPushBack` at `hash(elem) % current_capacity`, `size_.fetch_add(1)` on
success; return early on failure; on success, if
`size_.load() / current_capacity > 4`, unlock and `resize(current_capacity)`. -/
def Add (hash : α → Nat) (s : HashSetRefinable α) (elem : α) :
    HashSetRefinable α × Bool :=
  let current_capacity := s.capacity_
  let bucket_idx := hash elem % current_capacity
  let fp := FindOrPushBack (s.table_.getD bucket_idx []) elem
  let s1 : HashSetRefinable α :=
    { s with table_ := s.table_.set bucket_idx fp.1,
             size_ := if fp.2 then s.size_ + 1 else s.size_ }
  if !fp.2 then (s1, false)
  else if s1.size_ / current_capacity > 4 then (s1.resize hash current_capacity, true)
  else (s1, true)

/-- `bool Remove(T elem)` after the retry loop exits with the bucket lock
held: `FindAndErase` at `hash(elem) % current_capacity`,
`size_.fetch_sub(1)` on success. -/
def Remove (hash : α → Nat) (s : HashSetRefinable α) (elem : α) :
    HashSetRefinable α × Bool :=
  let current_capacity := s.capacity_
  let bucket_idx := hash elem % current_capacity
  let fe := FindAndErase (s.table_.getD bucket_idx []) elem
  ({ s with table_ := s.table_.set bucket_idx fe.1,
            size_ := if fe.2 then s.size_ - 1 else s.size_ }, fe.2)

/-- `bool Contains(T elem)` after the retry loop exits; read-only. -/
def Contains (hash : α → Nat) (s : HashSetRefinable α) (elem : α) : Bool :=
  decide (elem ∈ s.table_.getD (hash elem % s.capacity_) [])

/-- `size_t Size() const { return size_.load(); }` -/
def Size (s : HashSetRefinable α) : Nat := s.size_

end HashSetRefinable

/-! ## Lock-acquisition traces of the two fine-grained `resize` functions

Only the per-bucket/stripe mutex operations that each `resize` performs
*before its table rebuild begins* are recorded (the refinable descriptor
`shared_mutex` is a different protection unit and is not a bucket lock). -/

/-- A lock event on bucket/stripe mutex `i`. -/
inductive LockEvent
  | acquire (i : Nat)
  | release (i : Nat)
deriving DecidableEq

/-- `HashSetStriped::resize`, lines before the rebuild:
`for (auto& lock : locks_) unique_locks.emplace_back(lock);` — each stripe
lock is acquired in ascending index order and none is released until the
function returns (the `unique_lock`s live to the end of scope). -/
def stripedResizePrelock (num_locks : Nat) : List LockEvent :=
  (List.range num_locks).map LockEvent.acquire

/-- `HashSetRefinable::resize`, lines before the rebuild:
`for (auto& mutex : locks_) { mutex->lock(); mutex->unlock(); }` — each
bucket lock is acquired and immediately released, in ascending index order. -/
def refinableResizePrelock (num_locks : Nat) : List LockEvent :=
  (List.range num_locks).flatMap
    (fun i => [LockEvent.acquire i, LockEvent.release i])

/-- Effect of one lock event on the list of currently held lock indices
(acquisition appends, release erases the first occurrence). -/
def applyLockEvent (held : List Nat) (e : LockEvent) : List Nat :=
  match e with
  | LockEvent.acquire i => held ++ [i]
  | LockEvent.release i => held.erase i

/-- Replay a trace: the lock indices still held after the events. -/
def heldAfter (events : List LockEvent) : List Nat :=
  events.foldl applyLockEvent []

/-- The indices acquired by a trace, in acquisition order. -/
def acquiredOrder (events : List LockEvent) : List Nat :=
  events.filterMap
    (fun e =>
      match e with
      | LockEvent.acquire i => some i
      | LockEvent.release _ => none)

/-! ## Invariants and reachability -/

/-- The bucket-placement invariant of the data model: every element stored in
bucket `i` satisfies `hash(element) mod capacity == i`, where the capacity is
the table's length. -/
def BucketsPlaced (hash : α → Nat) (t : List (List α)) : Prop :=
  ∀ i (h : i < t.length), ∀ e ∈ t.get ⟨i, h⟩, hash e % t.length = i

instance (hash : α → Nat) (t : List (List α)) : Decidable (BucketsPlaced hash t) :=
  inferInstanceAs (Decidable (∀ i (h : i < t.length), ∀ e ∈ t.get ⟨i, h⟩, hash e % t.length = i))

/-- The sequential strategy's state invariant: positive capacity, `size_`
consistent with the buckets, every element in its home bucket, and no
duplicate elements. -/
def SeqInv (hash : α → Nat) (s : HashSetSequential α) : Prop :=
  0 < s.table_.length ∧
  s.size_ = s.table_.flatten.length ∧
  BucketsPlaced hash s.table_ ∧
  s.table_.flatten.Nodup

/-- The coarse-grained strategy's state invariant (same shape). -/
def CoarseInv (hash : α → Nat) (s : HashSetCoarseGrained α) : Prop :=
  0 < s.table_.length ∧
  s.size_ = s.table_.flatten.length ∧
  BucketsPlaced hash s.table_ ∧
  s.table_.flatten.Nodup

/-- The striped strategy's state invariant: additionally, the published
`capacity_` equals the table's bucket count. -/
def StripedInv (hash : α → Nat) (s : HashSetStriped α) : Prop :=
  0 < s.table_.length ∧
  s.size_ = s.table_.flatten.length ∧
  BucketsPlaced hash s.table_ ∧
  s.table_.flatten.Nodup ∧
  s.capacity_ = s.table_.length

/-- The refinable strategy's state invariant: additionally, the lock array
has one lock per bucket and no resize is in progress at a quiescent point. -/
def RefinableInv (hash : α → Nat) (s : HashSetRefinable α) : Prop :=
  0 < s.table_.length ∧
  s.size_ = s.table_.flatten.length ∧
  BucketsPlaced hash s.table_ ∧
  s.table_.flatten.Nodup ∧
  s.capacity_ = s.table_.length ∧
  s.locks_ = s.capacity_ ∧
  s.resizing_flag_ = false

/-- States of `HashSetSequential` reachable from construction by completed
`Add`/`Remove` calls (`Contains` and `Size` do not change the state). -/
inductive SeqReach (hash : α → Nat) (capacity : Nat) : HashSetSequential α → Prop
  | init : SeqReach hash capacity (HashSetSequential.init capacity)
  | add (s : HashSetSequential α) (elem : α) :
      SeqReach hash capacity s →
      SeqReach hash capacity (HashSetSequential.Add hash s elem).1
  | remove (s : HashSetSequential α) (elem : α) :
      SeqReach hash capacity s →
      SeqReach hash capacity (HashSetSequential.Remove hash s elem).1

/-- Reachable states of `HashSetCoarseGrained`. -/
inductive CoarseReach (hash : α → Nat) (capacity : Nat) :
    HashSetCoarseGrained α → Prop
  | init : CoarseReach hash capacity (HashSetCoarseGrained.init capacity)
  | add (s : HashSetCoarseGrained α) (elem : α) :
      CoarseReach hash capacity s →
      CoarseReach hash capacity (HashSetCoarseGrained.Add hash s elem).1
  | remove (s : HashSetCoarseGrained α) (elem : α) :
      CoarseReach hash capacity s →
      CoarseReach hash capacity (HashSetCoarseGrained.Remove hash s elem).1

/-- Reachable states of `HashSetStriped`. -/
inductive StripedReach (hash : α → Nat) (capacity : Nat) : HashSetStriped α → Prop
  | init : StripedReach hash capacity (HashSetStriped.init capacity)
  | add (s : HashSetStriped α) (elem : α) :
      StripedReach hash capacity s →
      StripedReach hash capacity (HashSetStriped.Add hash s elem).1
  | remove (s : HashSetStriped α) (elem : α) :
      StripedReach hash capacity s →
      StripedReach hash capacity (HashSetStriped.Remove hash s elem).1

/-- Reachable states of `HashSetRefinable`. -/
inductive RefinableReach (hash : α → Nat) (capacity : Nat) :
    HashSetRefinable α → Prop
  | init : RefinableReach hash capacity (HashSetRefinable.init capacity)
  | add (s : HashSetRefinable α) (elem : α) :
      RefinableReach hash capacity s →
      RefinableReach hash capacity (HashSetRefinable.Add hash s elem).1
  | remove (s : HashSetRefinable α) (elem : α) :
      RefinableReach hash capacity s →
      RefinableReach hash capacity (HashSetRefinable.Remove hash s elem).1

/-- Driver for the §8 scenario: sequentially `Add` each listed element. -/
def addAll (hash : α → Nat) (s : HashSetSequential α) (elems : List α) :
    HashSetSequential α :=
  elems.foldl (fun t e => (HashSetSequential.Add hash t e).1) s

/-- Abbreviation (for stating lemmas): the sequential state right after a
successful chain insertion, before the load-factor check. -/
def seqInsertState (hash : α → Nat) (s : HashSetSequential α) (e : α) :
    HashSetSequential α :=
  { table_ := s.table_.set (hash e % s.table_.length)
      (s.table_.getD (hash e % s.table_.length) [] ++ [e]),
    size_ := s.size_ + 1 }

/-- Abbreviation: the coarse-grained state right after a successful chain
insertion, before the load-factor check. -/
def coarseInsertState (hash : α → Nat) (s : HashSetCoarseGrained α) (e : α) :
    HashSetCoarseGrained α :=
  { table_ := s.table_.set (hash e % s.table_.length)
      (s.table_.getD (hash e % s.table_.length) [] ++ [e]),
    size_ := s.size_ + 1 }

/-- Abbreviation: the striped state right after a successful chain insertion,
before the load-factor check (bucket located via the `capacity_` snapshot). -/
def stripedInsertState (hash : α → Nat) (s : HashSetStriped α) (e : α) :
    HashSetStriped α :=
  { s with
    table_ := s.table_.set (hash e % s.capacity_)
      (s.table_.getD (hash e % s.capacity_) [] ++ [e]),
    size_ := s.size_ + 1 }

/-- Abbreviation: the refinable state right after a successful chain
insertion, before the load-factor check. -/
def refinableInsertState (hash : α → Nat) (s : HashSetRefinable α) (e : α) :
    HashSetRefinable α :=
  { s with
    table_ := s.table_.set (hash e % s.capacity_)
      (s.table_.getD (hash e % s.capacity_) [] ++ [e]),
    size_ := s.size_ + 1 }

/-! ## Bucket-level lemmas -/

theorem FindOrPushBack_of_mem {list : List α} {elem : α} (h : elem ∈ list) :
    FindOrPushBack list elem = (list, false) := by
  simp [FindOrPushBack, h]

theorem FindOrPushBack_of_not_mem {list : List α} {elem : α} (h : elem ∉ list) :
    FindOrPushBack list elem = (list ++ [elem], true) := by
  simp [FindOrPushBack, h]

theorem FindAndErase_of_mem {list : List α} {elem : α} (h : elem ∈ list) :
    FindAndErase list elem = (eraseFirst list elem, true) := by
  simp [FindAndErase, h]

theorem FindAndErase_of_not_mem {list : List α} {elem : α} (h : elem ∉ list) :
    FindAndErase list elem = (list, false) := by
  simp [FindAndErase, h]

theorem eraseFirst_perm {l : List α} {e : α} (h : e ∈ l) :
    (e :: eraseFirst l e).Perm l := by
  induction l with
  | nil => cases h
  | cons x xs ih =>
    by_cases hx : x = e
    · subst hx; simp [eraseFirst]
    · have hmem : e ∈ xs := by
        rcases List.mem_cons.mp h with h1 | h1
        · exact absurd h1.symm hx
        · exact h1
      have hrw : eraseFirst (x :: xs) e = x :: eraseFirst xs e := by
        simp [eraseFirst, hx]
      rw [hrw]
      exact (List.Perm.swap x e (eraseFirst xs e)).trans ((ih hmem).cons x)

theorem eraseFirst_of_not_mem {l : List α} {e : α} (h : e ∉ l) :
    eraseFirst l e = l := by
  induction l with
  | nil => rfl
  | cons x xs ih =>
    simp only [List.mem_cons, not_or] at h
    have hx : ¬ x = e := fun he => h.1 he.symm
    simp [eraseFirst, hx, ih h.2]

theorem mem_of_mem_eraseFirst {l : List α} {e x : α} (h : x ∈ eraseFirst l e) :
    x ∈ l := by
  by_cases hm : e ∈ l
  · exact (eraseFirst_perm hm).mem_iff.mp (List.mem_cons_of_mem e h)
  · rwa [eraseFirst_of_not_mem hm] at h

theorem set_getD_self (t : List (List α)) (i : Nat) : t.set i (t.getD i []) = t := by
  induction t generalizing i with
  | nil => rfl
  | cons b bs ih =>
    cases i with
    | zero => rfl
    | succ n =>
      show b :: bs.set n ((b :: bs).getD (n + 1) []) = b :: bs
      rw [List.getD_cons_succ, ih n]

theorem getD_set_ne (t : List (List α)) (i j : Nat) (b : List α) (hne : j ≠ i) :
    (t.set i b).getD j [] = t.getD j [] := by
  induction t generalizing i j with
  | nil => rfl
  | cons x xs ih =>
    cases i with
    | zero =>
      cases j with
      | zero => exact absurd rfl hne
      | succ m => rfl
    | succ n =>
      cases j with
      | zero => rfl
      | succ m =>
        show (xs.set n b).getD m [] = xs.getD m []
        exact ih n m (fun h => hne (congrArg Nat.succ h))

theorem getD_set_self (t : List (List α)) (i : Nat) (b : List α)
    (h : i < t.length) : (t.set i b).getD i [] = b := by
  induction t generalizing i with
  | nil => exact absurd h (Nat.not_lt_zero i)
  | cons x xs ih =>
    cases i with
    | zero => rfl
    | succ n => exact ih n (Nat.lt_of_succ_lt_succ h)

theorem mem_flatten_of_mem_getD {t : List (List α)} {i : Nat} {e : α}
    (h : e ∈ t.getD i []) : e ∈ t.flatten := by
  by_cases hi : i < t.length
  · rw [List.getD_eq_getElem t [] hi] at h
    exact List.mem_flatten.mpr ⟨t[i], List.getElem_mem hi, h⟩
  · rw [List.getD_eq_default t [] (Nat.le_of_not_lt hi)] at h
    cases h

theorem lt_length_of_mem_getD {t : List (List α)} {i : Nat} {e : α}
    (h : e ∈ t.getD i []) : i < t.length := by
  by_contra hi
  rw [List.getD_eq_default t [] (Nat.le_of_not_lt hi)] at h
  cases h

theorem flatten_set_append_perm (t : List (List α)) (e : α) :
    ∀ i, i < t.length →
      ((t.set i (t.getD i [] ++ [e])).flatten).Perm (e :: t.flatten) := by
  induction t with
  | nil => intro i hi; exact absurd hi (Nat.not_lt_zero i)
  | cons b bs ih =>
    intro i hi
    cases i with
    | zero =>
      show ((b ++ [e]) :: bs).flatten.Perm (e :: (b :: bs).flatten)
      rw [List.flatten_cons, List.flatten_cons, List.append_assoc]
      exact List.perm_middle
    | succ n =>
      have hn : n < bs.length := Nat.lt_of_succ_lt_succ hi
      show (b :: bs.set n (bs.getD n [] ++ [e])).flatten.Perm (e :: (b :: bs).flatten)
      rw [List.flatten_cons, List.flatten_cons]
      exact ((ih n hn).append_left b).trans List.perm_middle

theorem flatten_set_eraseFirst_perm (t : List (List α)) (e : α) :
    ∀ i, i < t.length → e ∈ t.getD i [] →
      (e :: (t.set i (eraseFirst (t.getD i []) e)).flatten).Perm t.flatten := by
  induction t with
  | nil => intro i hi _; exact absurd hi (Nat.not_lt_zero i)
  | cons b bs ih =>
    intro i hi hmem
    cases i with
    | zero =>
      show (e :: (eraseFirst b e :: bs).flatten).Perm (b :: bs).flatten
      rw [List.flatten_cons, List.flatten_cons]
      exact (eraseFirst_perm hmem).append_right bs.flatten
    | succ n =>
      have hn : n < bs.length := Nat.lt_of_succ_lt_succ hi
      show (e :: (b :: bs.set n (eraseFirst (bs.getD n []) e)).flatten).Perm
        (b :: bs).flatten
      rw [List.flatten_cons, List.flatten_cons]
      exact (List.perm_middle.symm).trans ((ih n hn hmem).append_left b)

/-! ## Placement-invariant lemmas -/

theorem placed_mem_home_bucket {hash : α → Nat} {t : List (List α)} {e : α}
    (hp : BucketsPlaced hash t) (h : e ∈ t.flatten) :
    e ∈ t.getD (hash e % t.length) [] := by
  rcases List.mem_flatten.mp h with ⟨b, hb, heb⟩
  rcases List.getElem_of_mem hb with ⟨j, hj, hbj⟩
  have hje : e ∈ t.get ⟨j, hj⟩ := by rw [List.get_eq_getElem, hbj]; exact heb
  have hidx := hp j hj e hje
  rw [hidx, List.getD_eq_getElem t [] hj, hbj]
  exact heb

theorem placed_not_mem_flatten {hash : α → Nat} {t : List (List α)} {e : α}
    (hp : BucketsPlaced hash t) (h : e ∉ t.getD (hash e % t.length) []) :
    e ∉ t.flatten :=
  fun hmem => h (placed_mem_home_bucket hp hmem)

theorem placed_set {hash : α → Nat} {t : List (List α)} {i : Nat} {b : List α}
    (hp : BucketsPlaced hash t) (hb : ∀ x ∈ b, hash x % t.length = i) :
    BucketsPlaced hash (t.set i b) := by
  intro j hj x hx
  rw [List.get_eq_getElem] at hx
  have hjt : j < t.length := by simpa using hj
  rw [List.length_set]
  by_cases hij : i = j
  · subst hij
    rw [List.getElem_set_self] at hx
    exact hb x hx
  · rw [List.getElem_set_ne hij] at hx
    exact hp j hjt x (by rw [List.get_eq_getElem]; exact hx)

theorem placed_replicate (hash : α → Nat) (n : Nat) :
    BucketsPlaced hash (List.replicate n ([] : List α)) := by
  intro j hj x hx
  rw [List.get_eq_getElem, List.getElem_replicate] at hx
  cases hx

theorem flatten_replicate_nil (n : Nat) :
    (List.replicate n ([] : List α)).flatten = [] := by
  induction n with
  | zero => rfl
  | succ m ih => simpa [List.replicate_succ, List.flatten_cons] using ih

/-! ## Migration-loop lemmas -/

theorem rehashStep_length (hash : α → Nat) (modulus : Nat) (nt : List (List α))
    (elem : α) : (rehashStep hash modulus nt elem).length = nt.length := by
  simp [rehashStep]

theorem rehashFold_length (hash : α → Nat) (modulus : Nat) (es : List α) :
    ∀ nt : List (List α), (es.foldl (rehashStep hash modulus) nt).length = nt.length := by
  induction es with
  | nil => intro nt; rfl
  | cons e es ih =>
    intro nt
    rw [List.foldl_cons, ih, rehashStep_length]

theorem rehashStep_flatten_perm (hash : α → Nat) (modulus : Nat) (nt : List (List α))
    (elem : α) (h : hash elem % modulus < nt.length) :
    (rehashStep hash modulus nt elem).flatten.Perm (elem :: nt.flatten) :=
  flatten_set_append_perm nt elem _ h

theorem rehashFold_flatten_perm (hash : α → Nat) (modulus : Nat) (hm : 0 < modulus)
    (es : List α) :
    ∀ nt : List (List α), nt.length = modulus →
      ((es.foldl (rehashStep hash modulus) nt).flatten).Perm (nt.flatten ++ es) := by
  induction es with
  | nil => intro nt _; simpa using List.Perm.refl nt.flatten
  | cons e es ih =>
    intro nt hlen
    rw [List.foldl_cons]
    have hidx : hash e % modulus < nt.length := by rw [hlen]; exact Nat.mod_lt _ hm
    have h1 := ih (rehashStep hash modulus nt e) (by rw [rehashStep_length, hlen])
    have h2 : ((rehashStep hash modulus nt e).flatten ++ es).Perm
        ((e :: nt.flatten) ++ es) :=
      (rehashStep_flatten_perm hash modulus nt e hidx).append_right es
    exact (h1.trans h2).trans List.perm_middle.symm

theorem rehashStep_placed (hash : α → Nat) (modulus : Nat) (nt : List (List α))
    (elem : α) (hlen : nt.length = modulus) (hp : BucketsPlaced hash nt) :
    BucketsPlaced hash (rehashStep hash modulus nt elem) := by
  unfold rehashStep
  by_cases hm : 0 < modulus
  · apply placed_set hp
    intro x hx
    rcases List.mem_append.mp hx with h1 | h1
    · have hi : hash elem % modulus < nt.length := by rw [hlen]; exact Nat.mod_lt _ hm
      have hxe : x ∈ nt.get ⟨hash elem % modulus, hi⟩ := by
        rw [List.get_eq_getElem, ← List.getD_eq_getElem nt [] hi]; exact h1
      exact hp _ hi x hxe
    · rw [List.mem_singleton.mp h1, hlen]
  · have h0 : modulus = 0 := Nat.eq_zero_of_not_pos hm
    have : nt = [] := List.length_eq_zero.mp (by rw [hlen, h0])
    subst this
    simpa using hp

theorem rehashFold_placed (hash : α → Nat) (modulus : Nat) (es : List α) :
    ∀ nt : List (List α), nt.length = modulus → BucketsPlaced hash nt →
      BucketsPlaced hash (es.foldl (rehashStep hash modulus) nt) := by
  induction es with
  | nil => intro nt _ hp; exact hp
  | cons e es ih =>
    intro nt hlen hp
    rw [List.foldl_cons]
    exact ih _ (by rw [rehashStep_length, hlen])
      (rehashStep_placed hash modulus nt e hlen hp)

theorem rehashStepCur_eq (hash : α → Nat) (modulus : Nat) (nt : List (List α))
    (elem : α) (hlen : nt.length = modulus) :
    rehashStepCur hash nt elem = rehashStep hash modulus nt elem := by
  unfold rehashStepCur rehashStep
  rw [hlen]

theorem rehashFoldCur_eq (hash : α → Nat) (modulus : Nat) (es : List α) :
    ∀ nt : List (List α), nt.length = modulus →
      es.foldl (rehashStepCur hash) nt = es.foldl (rehashStep hash modulus) nt := by
  induction es with
  | nil => intro nt _; rfl
  | cons e es ih =>
    intro nt hlen
    rw [List.foldl_cons, List.foldl_cons, rehashStepCur_eq hash modulus nt e hlen]
    exact ih _ (by rw [rehashStep_length, hlen])

/-! ## Sequential strategy: operation characterisations -/

theorem seq_resize_table (hash : α → Nat) (s : HashSetSequential α) :
    (s.resize hash).table_ =
      s.table_.flatten.foldl (rehashStep hash (s.table_.length * 2))
        (List.replicate (s.table_.length * 2) []) ∧
    (s.resize hash).size_ = s.size_ := by
  constructor
  · show s.table_.flatten.foldl (rehashStepCur hash)
      (List.replicate (s.table_.length * 2) []) = _
    exact rehashFoldCur_eq hash (s.table_.length * 2) _ _ (by simp)
  · rfl

theorem seq_resize_spec (hash : α → Nat) (s : HashSetSequential α) :
    (s.resize hash).table_.flatten.Perm s.table_.flatten ∧
    (s.resize hash).table_.length = s.table_.length * 2 ∧
    BucketsPlaced hash (s.resize hash).table_ ∧
    (s.resize hash).size_ = s.size_ := by
  obtain ⟨ht, hs⟩ := seq_resize_table hash s
  refine ⟨?_, ?_, ?_, hs⟩
  · rw [ht]
    by_cases h0 : 0 < s.table_.length
    · have hperm := rehashFold_flatten_perm hash (s.table_.length * 2)
        (by omega) s.table_.flatten (List.replicate (s.table_.length * 2) []) (by simp)
      simpa [flatten_replicate_nil] using hperm
    · have hnil : s.table_ = [] := List.length_eq_zero.mp (by omega)
      rw [hnil]
      simp
  · rw [ht, rehashFold_length]
    simp
  · rw [ht]
    exact rehashFold_placed hash _ _ _ (by simp) (placed_replicate hash _)

theorem seq_resize_inv (hash : α → Nat) (s : HashSetSequential α)
    (hinv : SeqInv hash s) : SeqInv hash (s.resize hash) := by
  obtain ⟨hpos, hsize, _, hnodup⟩ := hinv
  obtain ⟨hperm, hlen, hpl, hsz⟩ := seq_resize_spec hash s
  refine ⟨?_, ?_, hpl, ?_⟩
  · rw [hlen]; omega
  · rw [hsz, hperm.length_eq, hsize]
  · exact hperm.nodup_iff.mpr hnodup

theorem seq_Add_eq_of_mem (hash : α → Nat) (s : HashSetSequential α) (e : α)
    (hbk : e ∈ s.table_.getD (hash e % s.table_.length) []) :
    HashSetSequential.Add hash s e =
      (if s.policy then s.resize hash else s, false) := by
  obtain ⟨t, n⟩ := s
  simp only [HashSetSequential.Add, FindOrPushBack_of_mem hbk, set_getD_self,
    Bool.false_eq_true, if_false]
  split <;> rfl

theorem seq_Add_eq_of_not_mem (hash : α → Nat) (s : HashSetSequential α) (e : α)
    (hbk : e ∉ s.table_.getD (hash e % s.table_.length) []) :
    HashSetSequential.Add hash s e =
      (if (seqInsertState hash s e).policy
       then ((seqInsertState hash s e).resize hash, true)
       else (seqInsertState hash s e, true)) := by
  simp only [HashSetSequential.Add, FindOrPushBack_of_not_mem hbk, if_true,
    seqInsertState]

theorem seqInsertState_spec (hash : α → Nat) (s : HashSetSequential α) (e : α)
    (hinv : SeqInv hash s) (hmem : e ∉ s.table_.flatten) :
    SeqInv hash (seqInsertState hash s e) ∧
    (seqInsertState hash s e).table_.flatten.Perm (e :: s.table_.flatten) := by
  obtain ⟨hpos, hsize, hplaced, hnodup⟩ := hinv
  have hidx : hash e % s.table_.length < s.table_.length := Nat.mod_lt _ hpos
  have hperm1 := flatten_set_append_perm s.table_ e _ hidx
  have hpl1 : BucketsPlaced hash (seqInsertState hash s e).table_ := by
    show BucketsPlaced hash (s.table_.set (hash e % s.table_.length)
      (s.table_.getD (hash e % s.table_.length) [] ++ [e]))
    apply placed_set hplaced
    intro x hx
    rcases List.mem_append.mp hx with h1 | h1
    · have hi : x ∈ s.table_.get ⟨hash e % s.table_.length, hidx⟩ := by
        rw [List.get_eq_getElem, ← List.getD_eq_getElem s.table_ [] hidx]
        exact h1
      exact hplaced _ hidx x hi
    · rw [List.mem_singleton.mp h1]
  have hnodup1 : (seqInsertState hash s e).table_.flatten.Nodup :=
    hperm1.nodup_iff.mpr (List.nodup_cons.mpr ⟨hmem, hnodup⟩)
  refine ⟨⟨?_, ?_, hpl1, hnodup1⟩, hperm1⟩
  · show 0 < (s.table_.set (hash e % s.table_.length)
      (s.table_.getD (hash e % s.table_.length) [] ++ [e])).length
    rw [List.length_set]
    exact hpos
  · show s.size_ + 1 = (s.table_.set (hash e % s.table_.length)
      (s.table_.getD (hash e % s.table_.length) [] ++ [e])).flatten.length
    rw [hperm1.length_eq]
    simp [hsize]

theorem seq_Add_spec (hash : α → Nat) (s : HashSetSequential α) (e : α)
    (hinv : SeqInv hash s) :
    SeqInv hash (HashSetSequential.Add hash s e).1 ∧
    ((HashSetSequential.Add hash s e).2 = true ↔ e ∉ s.table_.flatten) ∧
    (∀ x, x ∈ (HashSetSequential.Add hash s e).1.table_.flatten ↔
      x = e ∨ x ∈ s.table_.flatten) ∧
    ((HashSetSequential.Add hash s e).1.size_ =
      if e ∈ s.table_.flatten then s.size_ else s.size_ + 1) := by
  by_cases hmem : e ∈ s.table_.flatten
  · have hbk : e ∈ s.table_.getD (hash e % s.table_.length) [] :=
      placed_mem_home_bucket hinv.2.2.1 hmem
    rw [seq_Add_eq_of_mem hash s e hbk]
    obtain ⟨hperm, hlen, hpl, hsz⟩ := seq_resize_spec hash s
    by_cases hpol : s.policy = true
    · rw [if_pos hpol]
      exact ⟨seq_resize_inv hash s hinv,
        iff_of_false Bool.false_ne_true (not_not_intro hmem),
        fun x => ⟨fun hx => Or.inr (hperm.mem_iff.mp hx),
          fun h => hperm.mem_iff.mpr (h.elim (fun hxe => hxe.symm ▸ hmem) id)⟩,
        by rw [if_pos hmem]; exact hsz⟩
    · rw [if_neg hpol]
      exact ⟨hinv,
        iff_of_false Bool.false_ne_true (not_not_intro hmem),
        fun x => ⟨Or.inr, fun h => h.elim (fun hxe => hxe.symm ▸ hmem) id⟩,
        by rw [if_pos hmem]⟩
  · have hbk : e ∉ s.table_.getD (hash e % s.table_.length) [] :=
      fun h => hmem (mem_flatten_of_mem_getD h)
    rw [seq_Add_eq_of_not_mem hash s e hbk]
    obtain ⟨hinv1, hperm1⟩ := seqInsertState_spec hash s e hinv hmem
    by_cases hpol : (seqInsertState hash s e).policy = true
    · obtain ⟨hperm2, hlen2, hpl2, hsz2⟩ := seq_resize_spec hash (seqInsertState hash s e)
      rw [if_pos hpol]
      refine ⟨seq_resize_inv hash _ hinv1, iff_of_true rfl hmem, ?_,
        by rw [if_neg hmem]; exact hsz2⟩
      intro x
      rw [show ((HashSetSequential.resize hash (seqInsertState hash s e), true)).1 =
        HashSetSequential.resize hash (seqInsertState hash s e) from rfl]
      rw [hperm2.mem_iff, hperm1.mem_iff, List.mem_cons]
    · rw [if_neg hpol]
      refine ⟨hinv1, iff_of_true rfl hmem, ?_, by rw [if_neg hmem]; rfl⟩
      intro x
      rw [show ((seqInsertState hash s e, true)).1 = seqInsertState hash s e from rfl]
      rw [hperm1.mem_iff, List.mem_cons]

theorem seq_Remove_eq_of_not_mem (hash : α → Nat) (s : HashSetSequential α) (e : α)
    (hmem : e ∉ s.table_.flatten) :
    HashSetSequential.Remove hash s e = (s, false) := by
  have hbk : e ∉ s.table_.getD (hash e % s.table_.length) [] :=
    fun h => hmem (mem_flatten_of_mem_getD h)
  obtain ⟨t, n⟩ := s
  simp only [HashSetSequential.Remove, FindAndErase_of_not_mem hbk, set_getD_self,
    Bool.false_eq_true, if_false]

theorem seq_Remove_eq_of_mem (hash : α → Nat) (s : HashSetSequential α) (e : α)
    (hbk : e ∈ s.table_.getD (hash e % s.table_.length) []) :
    HashSetSequential.Remove hash s e =
      ({ table_ := s.table_.set (hash e % s.table_.length)
          (eraseFirst (s.table_.getD (hash e % s.table_.length) []) e),
         size_ := s.size_ - 1 }, true) := by
  simp only [HashSetSequential.Remove, FindAndErase_of_mem hbk, if_true]

theorem seq_Remove_spec (hash : α → Nat) (s : HashSetSequential α) (e : α)
    (hinv : SeqInv hash s) :
    SeqInv hash (HashSetSequential.Remove hash s e).1 ∧
    ((HashSetSequential.Remove hash s e).2 = true ↔ e ∈ s.table_.flatten) ∧
    (e ∉ s.table_.flatten → (HashSetSequential.Remove hash s e).1 = s) ∧
    (e ∈ s.table_.flatten →
      e ∉ (HashSetSequential.Remove hash s e).1.table_.flatten ∧
      (∀ x, x ≠ e →
        (x ∈ (HashSetSequential.Remove hash s e).1.table_.flatten ↔
          x ∈ s.table_.flatten)) ∧
      (HashSetSequential.Remove hash s e).1.size_ + 1 = s.size_) := by
  obtain ⟨hpos, hsize, hplaced, hnodup⟩ := hinv
  by_cases hmem : e ∈ s.table_.flatten
  · have hbk := placed_mem_home_bucket hplaced hmem
    have hidx : hash e % s.table_.length < s.table_.length := lt_length_of_mem_getD hbk
    rw [seq_Remove_eq_of_mem hash s e hbk]
    have hperm := flatten_set_eraseFirst_perm s.table_ e _ hidx hbk
    have hnodup2 := hperm.nodup_iff.mpr hnodup
    have hnotmem2 := (List.nodup_cons.mp hnodup2).1
    have hnodup3 := (List.nodup_cons.mp hnodup2).2
    have hlen2 : (s.table_.set (hash e % s.table_.length)
        (eraseFirst (s.table_.getD (hash e % s.table_.length) []) e)).flatten.length + 1 =
        s.table_.flatten.length := by
      have := hperm.length_eq
      simpa using this
    have hszpos : 0 < s.size_ := by
      rw [hsize]
      rcases List.mem_flatten.mp hmem with ⟨b, hb, heb⟩
      have : s.table_.flatten ≠ [] := fun hnil => by
        rw [hnil] at hmem
        cases hmem
      exact List.length_pos.mpr this
    have hpl2 : BucketsPlaced hash (s.table_.set (hash e % s.table_.length)
        (eraseFirst (s.table_.getD (hash e % s.table_.length) []) e)) := by
      apply placed_set hplaced
      intro x hx
      have hxb := mem_of_mem_eraseFirst hx
      have hi : x ∈ s.table_.get ⟨hash e % s.table_.length, hidx⟩ := by
        rw [List.get_eq_getElem, ← List.getD_eq_getElem s.table_ [] hidx]
        exact hxb
      exact hplaced _ hidx x hi
    refine ⟨⟨?_, ?_, hpl2, hnodup3⟩, iff_of_true rfl hmem, fun h => absurd hmem h, ?_⟩
    · show 0 < (s.table_.set (hash e % s.table_.length)
        (eraseFirst (s.table_.getD (hash e % s.table_.length) []) e)).length
      rw [List.length_set]
      exact hpos
    · show s.size_ - 1 = (s.table_.set (hash e % s.table_.length)
        (eraseFirst (s.table_.getD (hash e % s.table_.length) []) e)).flatten.length
      omega
    · intro _
      refine ⟨hnotmem2, ?_, ?_⟩
      · intro x hxe
        have h1 := hperm.mem_iff (a := x)
        rw [List.mem_cons] at h1
        constructor
        · intro hx
          exact h1.mp (Or.inr hx)
        · intro hx
          rcases h1.mpr hx with h2 | h2
          · exact absurd h2 hxe
          · exact h2
      · show s.size_ - 1 + 1 = s.size_
        omega
  · rw [seq_Remove_eq_of_not_mem hash s e hmem]
    exact ⟨⟨hpos, hsize, hplaced, hnodup⟩,
      iff_of_false Bool.false_ne_true hmem,
      fun _ => rfl,
      fun h => absurd h hmem⟩

theorem seq_reach_inv (hash : α → Nat) (c : Nat) (hc : 0 < c)
    (s : HashSetSequential α) (hr : SeqReach hash c s) : SeqInv hash s := by
  induction hr with
  | init =>
    refine ⟨?_, ?_, placed_replicate hash c, ?_⟩
    · show 0 < (List.replicate c ([] : List α)).length
      simpa using hc
    · show (0 : Nat) = (List.replicate c ([] : List α)).flatten.length
      rw [flatten_replicate_nil]
      rfl
    · show (List.replicate c ([] : List α)).flatten.Nodup
      rw [flatten_replicate_nil]
      exact List.nodup_nil
  | add s e _ ih => exact (seq_Add_spec hash s e ih).1
  | remove s e _ ih => exact (seq_Remove_spec hash s e ih).1

/-! ## Coarse-grained strategy: operation characterisations -/

theorem coarse_resize_table (hash : α → Nat) (s : HashSetCoarseGrained α) :
    (s.resize hash).table_ =
      s.table_.flatten.foldl (rehashStep hash (s.table_.length * 2))
        (List.replicate (s.table_.length * 2) []) ∧
    (s.resize hash).size_ = s.size_ := by
  constructor
  · show s.table_.flatten.foldl (rehashStepCur hash)
      (List.replicate (s.table_.length * 2) []) = _
    exact rehashFoldCur_eq hash (s.table_.length * 2) _ _ (by simp)
  · rfl

theorem coarse_resize_spec (hash : α → Nat) (s : HashSetCoarseGrained α) :
    (s.resize hash).table_.flatten.Perm s.table_.flatten ∧
    (s.resize hash).table_.length = s.table_.length * 2 ∧
    BucketsPlaced hash (s.resize hash).table_ ∧
    (s.resize hash).size_ = s.size_ := by
  obtain ⟨ht, hs⟩ := coarse_resize_table hash s
  refine ⟨?_, ?_, ?_, hs⟩
  · rw [ht]
    by_cases h0 : 0 < s.table_.length
    · have hperm := rehashFold_flatten_perm hash (s.table_.length * 2)
        (by omega) s.table_.flatten (List.replicate (s.table_.length * 2) []) (by simp)
      simpa [flatten_replicate_nil] using hperm
    · have hnil : s.table_ = [] := List.length_eq_zero.mp (by omega)
      rw [hnil]
      simp
  · rw [ht, rehashFold_length]
    simp
  · rw [ht]
    exact rehashFold_placed hash _ _ _ (by simp) (placed_replicate hash _)

theorem coarse_resize_inv (hash : α → Nat) (s : HashSetCoarseGrained α)
    (hinv : CoarseInv hash s) : CoarseInv hash (s.resize hash) := by
  obtain ⟨hpos, hsize, _, hnodup⟩ := hinv
  obtain ⟨hperm, hlen, hpl, hsz⟩ := coarse_resize_spec hash s
  refine ⟨?_, ?_, hpl, ?_⟩
  · rw [hlen]; omega
  · rw [hsz, hperm.length_eq, hsize]
  · exact hperm.nodup_iff.mpr hnodup

theorem coarse_Add_eq_of_mem (hash : α → Nat) (s : HashSetCoarseGrained α) (e : α)
    (hbk : e ∈ s.table_.getD (hash e % s.table_.length) []) :
    HashSetCoarseGrained.Add hash s e =
      (if s.policy then s.resize hash else s, false) := by
  obtain ⟨t, n⟩ := s
  simp only [HashSetCoarseGrained.Add, FindOrPushBack_of_mem hbk, set_getD_self,
    Bool.false_eq_true, if_false]
  split <;> rfl

theorem coarse_Add_eq_of_not_mem (hash : α → Nat) (s : HashSetCoarseGrained α) (e : α)
    (hbk : e ∉ s.table_.getD (hash e % s.table_.length) []) :
    HashSetCoarseGrained.Add hash s e =
      (if (coarseInsertState hash s e).policy
       then ((coarseInsertState hash s e).resize hash, true)
       else (coarseInsertState hash s e, true)) := by
  simp only [HashSetCoarseGrained.Add, FindOrPushBack_of_not_mem hbk, if_true,
    coarseInsertState]

theorem coarseInsertState_spec (hash : α → Nat) (s : HashSetCoarseGrained α) (e : α)
    (hinv : CoarseInv hash s) (hmem : e ∉ s.table_.flatten) :
    CoarseInv hash (coarseInsertState hash s e) ∧
    (coarseInsertState hash s e).table_.flatten.Perm (e :: s.table_.flatten) := by
  obtain ⟨hpos, hsize, hplaced, hnodup⟩ := hinv
  have hidx : hash e % s.table_.length < s.table_.length := Nat.mod_lt _ hpos
  have hperm1 := flatten_set_append_perm s.table_ e _ hidx
  have hpl1 : BucketsPlaced hash (coarseInsertState hash s e).table_ := by
    show BucketsPlaced hash (s.table_.set (hash e % s.table_.length)
      (s.table_.getD (hash e % s.table_.length) [] ++ [e]))
    apply placed_set hplaced
    intro x hx
    rcases List.mem_append.mp hx with h1 | h1
    · have hi : x ∈ s.table_.get ⟨hash e % s.table_.length, hidx⟩ := by
        rw [List.get_eq_getElem, ← List.getD_eq_getElem s.table_ [] hidx]
        exact h1
      exact hplaced _ hidx x hi
    · rw [List.mem_singleton.mp h1]
  have hnodup1 : (coarseInsertState hash s e).table_.flatten.Nodup :=
    hperm1.nodup_iff.mpr (List.nodup_cons.mpr ⟨hmem, hnodup⟩)
  refine ⟨⟨?_, ?_, hpl1, hnodup1⟩, hperm1⟩
  · show 0 < (s.table_.set (hash e % s.table_.length)
      (s.table_.getD (hash e % s.table_.length) [] ++ [e])).length
    rw [List.length_set]
    exact hpos
  · show s.size_ + 1 = (s.table_.set (hash e % s.table_.length)
      (s.table_.getD (hash e % s.table_.length) [] ++ [e])).flatten.length
    rw [hperm1.length_eq]
    simp [hsize]

theorem coarse_Add_spec (hash : α → Nat) (s : HashSetCoarseGrained α) (e : α)
    (hinv : CoarseInv hash s) :
    CoarseInv hash (HashSetCoarseGrained.Add hash s e).1 ∧
    ((HashSetCoarseGrained.Add hash s e).2 = true ↔ e ∉ s.table_.flatten) ∧
    (∀ x, x ∈ (HashSetCoarseGrained.Add hash s e).1.table_.flatten ↔
      x = e ∨ x ∈ s.table_.flatten) ∧
    ((HashSetCoarseGrained.Add hash s e).1.size_ =
      if e ∈ s.table_.flatten then s.size_ else s.size_ + 1) := by
  by_cases hmem : e ∈ s.table_.flatten
  · have hbk : e ∈ s.table_.getD (hash e % s.table_.length) [] :=
      placed_mem_home_bucket hinv.2.2.1 hmem
    rw [coarse_Add_eq_of_mem hash s e hbk]
    obtain ⟨hperm, hlen, hpl, hsz⟩ := coarse_resize_spec hash s
    by_cases hpol : s.policy = true
    · rw [if_pos hpol]
      exact ⟨coarse_resize_inv hash s hinv,
        iff_of_false Bool.false_ne_true (not_not_intro hmem),
        fun x => ⟨fun hx => Or.inr (hperm.mem_iff.mp hx),
          fun h => hperm.mem_iff.mpr (h.elim (fun hxe => hxe.symm ▸ hmem) id)⟩,
        by rw [if_pos hmem]; exact hsz⟩
    · rw [if_neg hpol]
      exact ⟨hinv,
        iff_of_false Bool.false_ne_true (not_not_intro hmem),
        fun x => ⟨Or.inr, fun h => h.elim (fun hxe => hxe.symm ▸ hmem) id⟩,
        by rw [if_pos hmem]⟩
  · have hbk : e ∉ s.table_.getD (hash e % s.table_.length) [] :=
      fun h => hmem (mem_flatten_of_mem_getD h)
    rw [coarse_Add_eq_of_not_mem hash s e hbk]
    obtain ⟨hinv1, hperm1⟩ := coarseInsertState_spec hash s e hinv hmem
    by_cases hpol : (coarseInsertState hash s e).policy = true
    · obtain ⟨hperm2, hlen2, hpl2, hsz2⟩ := coarse_resize_spec hash (coarseInsertState hash s e)
      rw [if_pos hpol]
      refine ⟨coarse_resize_inv hash _ hinv1, iff_of_true rfl hmem, ?_,
        by rw [if_neg hmem]; exact hsz2⟩
      intro x
      rw [show ((HashSetCoarseGrained.resize hash (coarseInsertState hash s e), true)).1 =
        HashSetCoarseGrained.resize hash (coarseInsertState hash s e) from rfl]
      rw [hperm2.mem_iff, hperm1.mem_iff, List.mem_cons]
    · rw [if_neg hpol]
      refine ⟨hinv1, iff_of_true rfl hmem, ?_, by rw [if_neg hmem]; rfl⟩
      intro x
      rw [show ((coarseInsertState hash s e, true)).1 = coarseInsertState hash s e from rfl]
      rw [hperm1.mem_iff, List.mem_cons]

theorem coarse_Remove_eq_of_not_mem (hash : α → Nat) (s : HashSetCoarseGrained α) (e : α)
    (hmem : e ∉ s.table_.flatten) :
    HashSetCoarseGrained.Remove hash s e = (s, false) := by
  have hbk : e ∉ s.table_.getD (hash e % s.table_.length) [] :=
    fun h => hmem (mem_flatten_of_mem_getD h)
  obtain ⟨t, n⟩ := s
  simp only [HashSetCoarseGrained.Remove, FindAndErase_of_not_mem hbk, set_getD_self,
    Bool.false_eq_true, if_false]

theorem coarse_Remove_eq_of_mem (hash : α → Nat) (s : HashSetCoarseGrained α) (e : α)
    (hbk : e ∈ s.table_.getD (hash e % s.table_.length) []) :
    HashSetCoarseGrained.Remove hash s e =
      ({ table_ := s.table_.set (hash e % s.table_.length)
          (eraseFirst (s.table_.getD (hash e % s.table_.length) []) e),
         size_ := s.size_ - 1 }, true) := by
  simp only [HashSetCoarseGrained.Remove, FindAndErase_of_mem hbk, if_true]

theorem coarse_Remove_spec (hash : α → Nat) (s : HashSetCoarseGrained α) (e : α)
    (hinv : CoarseInv hash s) :
    CoarseInv hash (HashSetCoarseGrained.Remove hash s e).1 ∧
    ((HashSetCoarseGrained.Remove hash s e).2 = true ↔ e ∈ s.table_.flatten) ∧
    (e ∉ s.table_.flatten → (HashSetCoarseGrained.Remove hash s e).1 = s) ∧
    (e ∈ s.table_.flatten →
      e ∉ (HashSetCoarseGrained.Remove hash s e).1.table_.flatten ∧
      (∀ x, x ≠ e →
        (x ∈ (HashSetCoarseGrained.Remove hash s e).1.table_.flatten ↔
          x ∈ s.table_.flatten)) ∧
      (HashSetCoarseGrained.Remove hash s e).1.size_ + 1 = s.size_) := by
  obtain ⟨hpos, hsize, hplaced, hnodup⟩ := hinv
  by_cases hmem : e ∈ s.table_.flatten
  · have hbk := placed_mem_home_bucket hplaced hmem
    have hidx : hash e % s.table_.length < s.table_.length := lt_length_of_mem_getD hbk
    rw [coarse_Remove_eq_of_mem hash s e hbk]
    have hperm := flatten_set_eraseFirst_perm s.table_ e _ hidx hbk
    have hnodup2 := hperm.nodup_iff.mpr hnodup
    have hnotmem2 := (List.nodup_cons.mp hnodup2).1
    have hnodup3 := (List.nodup_cons.mp hnodup2).2
    have hlen2 : (s.table_.set (hash e % s.table_.length)
        (eraseFirst (s.table_.getD (hash e % s.table_.length) []) e)).flatten.length + 1 =
        s.table_.flatten.length := by
      have := hperm.length_eq
      simpa using this
    have hszpos : 0 < s.size_ := by
      rw [hsize]
      rcases List.mem_flatten.mp hmem with ⟨b, hb, heb⟩
      have : s.table_.flatten ≠ [] := fun hnil => by
        rw [hnil] at hmem
        cases hmem
      exact List.length_pos.mpr this
    have hpl2 : BucketsPlaced hash (s.table_.set (hash e % s.table_.length)
        (eraseFirst (s.table_.getD (hash e % s.table_.length) []) e)) := by
      apply placed_set hplaced
      intro x hx
      have hxb := mem_of_mem_eraseFirst hx
      have hi : x ∈ s.table_.get ⟨hash e % s.table_.length, hidx⟩ := by
        rw [List.get_eq_getElem, ← List.getD_eq_getElem s.table_ [] hidx]
        exact hxb
      exact hplaced _ hidx x hi
    refine ⟨⟨?_, ?_, hpl2, hnodup3⟩, iff_of_true rfl hmem, fun h => absurd hmem h, ?_⟩
    · show 0 < (s.table_.set (hash e % s.table_.length)
        (eraseFirst (s.table_.getD (hash e % s.table_.length) []) e)).length
      rw [List.length_set]
      exact hpos
    · show s.size_ - 1 = (s.table_.set (hash e % s.table_.length)
        (eraseFirst (s.table_.getD (hash e % s.table_.length) []) e)).flatten.length
      omega
    · intro _
      refine ⟨hnotmem2, ?_, ?_⟩
      · intro x hxe
        have h1 := hperm.mem_iff (a := x)
        rw [List.mem_cons] at h1
        constructor
        · intro hx
          exact h1.mp (Or.inr hx)
        · intro hx
          rcases h1.mpr hx with h2 | h2
          · exact absurd h2 hxe
          · exact h2
      · show s.size_ - 1 + 1 = s.size_
        omega
  · rw [coarse_Remove_eq_of_not_mem hash s e hmem]
    exact ⟨⟨hpos, hsize, hplaced, hnodup⟩,
      iff_of_false Bool.false_ne_true hmem,
      fun _ => rfl,
      fun h => absurd h hmem⟩

theorem coarse_reach_inv (hash : α → Nat) (c : Nat) (hc : 0 < c)
    (s : HashSetCoarseGrained α) (hr : CoarseReach hash c s) : CoarseInv hash s := by
  induction hr with
  | init =>
    refine ⟨?_, ?_, placed_replicate hash c, ?_⟩
    · show 0 < (List.replicate c ([] : List α)).length
      simpa using hc
    · show (0 : Nat) = (List.replicate c ([] : List α)).flatten.length
      rw [flatten_replicate_nil]
      rfl
    · show (List.replicate c ([] : List α)).flatten.Nodup
      rw [flatten_replicate_nil]
      exact List.nodup_nil
  | add s e _ ih => exact (coarse_Add_spec hash s e ih).1
  | remove s e _ ih => exact (coarse_Remove_spec hash s e ih).1


/-! ## Striped strategy: operation characterisations -/

theorem striped_resize_eq (hash : α → Nat) (s : HashSetStriped α) :
    s.resize hash s.capacity_ =
      { s with
        table_ := s.table_.flatten.foldl (rehashStep hash (s.capacity_ * 2))
          (List.replicate (s.capacity_ * 2) []),
        capacity_ := s.capacity_ * 2 } := by
  simp only [HashSetStriped.resize]
  rw [if_neg (fun h => h rfl)]

theorem striped_resize_spec (hash : α → Nat) (s : HashSetStriped α)
    (hpos : 0 < s.capacity_) :
    (s.resize hash s.capacity_).table_.flatten.Perm s.table_.flatten ∧
    (s.resize hash s.capacity_).table_.length = s.capacity_ * 2 ∧
    (s.resize hash s.capacity_).capacity_ = s.capacity_ * 2 ∧
    BucketsPlaced hash (s.resize hash s.capacity_).table_ ∧
    (s.resize hash s.capacity_).size_ = s.size_ ∧
    (s.resize hash s.capacity_).num_of_locks_ = s.num_of_locks_ := by
  rw [striped_resize_eq hash s]
  refine ⟨?_, ?_, rfl, ?_, rfl, rfl⟩
  · have hperm := rehashFold_flatten_perm hash (s.capacity_ * 2) (by omega)
      s.table_.flatten (List.replicate (s.capacity_ * 2) []) (by simp)
    simpa [flatten_replicate_nil] using hperm
  · show (s.table_.flatten.foldl (rehashStep hash (s.capacity_ * 2))
      (List.replicate (s.capacity_ * 2) [])).length = s.capacity_ * 2
    rw [rehashFold_length]
    simp
  · show BucketsPlaced hash (s.table_.flatten.foldl (rehashStep hash (s.capacity_ * 2))
      (List.replicate (s.capacity_ * 2) []))
    exact rehashFold_placed hash _ _ _ (by simp) (placed_replicate hash _)

theorem striped_resize_inv (hash : α → Nat) (s : HashSetStriped α)
    (hinv : StripedInv hash s) : StripedInv hash (s.resize hash s.capacity_) := by
  obtain ⟨hpos, hsize, _, hnodup, hcap⟩ := hinv
  obtain ⟨hperm, hlen, hcap2, hpl, hsz, _⟩ :=
    striped_resize_spec hash s (by rw [hcap]; exact hpos)
  refine ⟨?_, ?_, hpl, ?_, ?_⟩
  · rw [hlen]
    omega
  · rw [hsz, hperm.length_eq, hsize]
  · exact hperm.nodup_iff.mpr hnodup
  · rw [hlen, hcap2]

theorem striped_Add_eq_of_mem (hash : α → Nat) (s : HashSetStriped α) (e : α)
    (hbk : e ∈ s.table_.getD (hash e % s.capacity_) []) :
    HashSetStriped.Add hash s e = (s, false) := by
  obtain ⟨t, n, c, l⟩ := s
  simp only [HashSetStriped.Add, FindOrPushBack_of_mem hbk, set_getD_self,
    Bool.not_false, if_true, Bool.false_eq_true, if_false]

theorem striped_Add_eq_of_not_mem (hash : α → Nat) (s : HashSetStriped α) (e : α)
    (hbk : e ∉ s.table_.getD (hash e % s.capacity_) []) :
    HashSetStriped.Add hash s e =
      (if (stripedInsertState hash s e).policy s.capacity_
       then ((stripedInsertState hash s e).resize hash s.capacity_, true)
       else (stripedInsertState hash s e, true)) := by
  simp only [HashSetStriped.Add, FindOrPushBack_of_not_mem hbk, if_true,
    Bool.not_true, Bool.false_eq_true, if_false, stripedInsertState]

theorem stripedInsertState_spec (hash : α → Nat) (s : HashSetStriped α) (e : α)
    (hinv : StripedInv hash s) (hmem : e ∉ s.table_.flatten) :
    StripedInv hash (stripedInsertState hash s e) ∧
    (stripedInsertState hash s e).table_.flatten.Perm (e :: s.table_.flatten) := by
  obtain ⟨hpos, hsize, hplaced, hnodup, hcap⟩ := hinv
  have hidx : hash e % s.capacity_ < s.table_.length := by
    rw [hcap]
    exact Nat.mod_lt _ (by rw [← hcap]; omega)
  have hperm1 : (stripedInsertState hash s e).table_.flatten.Perm
      (e :: s.table_.flatten) := by
    show (s.table_.set (hash e % s.capacity_)
      (s.table_.getD (hash e % s.capacity_) [] ++ [e])).flatten.Perm
      (e :: s.table_.flatten)
    exact flatten_set_append_perm s.table_ e _ hidx
  have hpl1 : BucketsPlaced hash (stripedInsertState hash s e).table_ := by
    show BucketsPlaced hash (s.table_.set (hash e % s.capacity_)
      (s.table_.getD (hash e % s.capacity_) [] ++ [e]))
    apply placed_set hplaced
    intro x hx
    rcases List.mem_append.mp hx with h1 | h1
    · have hi : x ∈ s.table_.get ⟨hash e % s.capacity_, hidx⟩ := by
        rw [List.get_eq_getElem, ← List.getD_eq_getElem s.table_ [] hidx]
        exact h1
      exact hplaced _ hidx x hi
    · rw [List.mem_singleton.mp h1, ← hcap]
  have hnodup1 : (stripedInsertState hash s e).table_.flatten.Nodup :=
    hperm1.nodup_iff.mpr (List.nodup_cons.mpr ⟨hmem, hnodup⟩)
  refine ⟨⟨?_, ?_, hpl1, hnodup1, ?_⟩, hperm1⟩
  · show 0 < (s.table_.set (hash e % s.capacity_)
      (s.table_.getD (hash e % s.capacity_) [] ++ [e])).length
    rw [List.length_set]
    exact hpos
  · show s.size_ + 1 = (stripedInsertState hash s e).table_.flatten.length
    rw [hperm1.length_eq]
    simp [hsize]
  · show s.capacity_ = (s.table_.set (hash e % s.capacity_)
      (s.table_.getD (hash e % s.capacity_) [] ++ [e])).length
    rw [List.length_set]
    exact hcap

theorem striped_Add_spec (hash : α → Nat) (s : HashSetStriped α) (e : α)
    (hinv : StripedInv hash s) :
    StripedInv hash (HashSetStriped.Add hash s e).1 ∧
    ((HashSetStriped.Add hash s e).2 = true ↔ e ∉ s.table_.flatten) ∧
    (∀ x, x ∈ (HashSetStriped.Add hash s e).1.table_.flatten ↔
      x = e ∨ x ∈ s.table_.flatten) ∧
    ((HashSetStriped.Add hash s e).1.size_ =
      if e ∈ s.table_.flatten then s.size_ else s.size_ + 1) := by
  by_cases hmem : e ∈ s.table_.flatten
  · have hbk : e ∈ s.table_.getD (hash e % s.capacity_) [] := by
      rw [hinv.2.2.2.2]
      exact placed_mem_home_bucket hinv.2.2.1 hmem
    rw [striped_Add_eq_of_mem hash s e hbk]
    exact ⟨hinv,
      iff_of_false Bool.false_ne_true (not_not_intro hmem),
      fun x => ⟨Or.inr, fun h => h.elim (fun hxe => hxe.symm ▸ hmem) id⟩,
      by rw [if_pos hmem]⟩
  · have hbk : e ∉ s.table_.getD (hash e % s.capacity_) [] :=
      fun h => hmem (mem_flatten_of_mem_getD h)
    rw [striped_Add_eq_of_not_mem hash s e hbk]
    obtain ⟨hinv1, hperm1⟩ := stripedInsertState_spec hash s e hinv hmem
    by_cases hpol : ((stripedInsertState hash s e).policy s.capacity_) = true
    · obtain ⟨hperm2, hlen2, hcap2, hpl2, hsz2, hnl2⟩ :=
        striped_resize_spec hash (stripedInsertState hash s e)
          (by show 0 < s.capacity_
              rw [hinv.2.2.2.2]
              exact hinv.1)
      rw [if_pos hpol]
      refine ⟨?_, iff_of_true rfl hmem, ?_, by rw [if_neg hmem]; exact hsz2⟩
      · exact striped_resize_inv hash _ hinv1
      · intro x
        show x ∈ (HashSetStriped.resize hash (stripedInsertState hash s e)
          (stripedInsertState hash s e).capacity_).table_.flatten ↔
          x = e ∨ x ∈ s.table_.flatten
        rw [hperm2.mem_iff, hperm1.mem_iff, List.mem_cons]
    · rw [if_neg hpol]
      refine ⟨hinv1, iff_of_true rfl hmem, ?_, by rw [if_neg hmem]; rfl⟩
      intro x
      rw [show ((stripedInsertState hash s e, true)).1 =
        stripedInsertState hash s e from rfl]
      rw [hperm1.mem_iff, List.mem_cons]

theorem striped_Remove_eq_of_not_mem (hash : α → Nat) (s : HashSetStriped α) (e : α)
    (hmem : e ∉ s.table_.flatten) :
    HashSetStriped.Remove hash s e = (s, false) := by
  have hbk : e ∉ s.table_.getD (hash e % s.capacity_) [] :=
    fun h => hmem (mem_flatten_of_mem_getD h)
  obtain ⟨t, n, c, l⟩ := s
  simp only [HashSetStriped.Remove, FindAndErase_of_not_mem hbk, set_getD_self,
    Bool.false_eq_true, if_false]

theorem striped_Remove_eq_of_mem (hash : α → Nat) (s : HashSetStriped α) (e : α)
    (hbk : e ∈ s.table_.getD (hash e % s.capacity_) []) :
    HashSetStriped.Remove hash s e =
      ({ s with
          table_ := s.table_.set (hash e % s.capacity_)
            (eraseFirst (s.table_.getD (hash e % s.capacity_) []) e),
          size_ := s.size_ - 1 }, true) := by
  simp only [HashSetStriped.Remove, FindAndErase_of_mem hbk, if_true]

theorem striped_Remove_spec (hash : α → Nat) (s : HashSetStriped α) (e : α)
    (hinv : StripedInv hash s) :
    StripedInv hash (HashSetStriped.Remove hash s e).1 ∧
    ((HashSetStriped.Remove hash s e).2 = true ↔ e ∈ s.table_.flatten) ∧
    (e ∉ s.table_.flatten → (HashSetStriped.Remove hash s e).1 = s) ∧
    (e ∈ s.table_.flatten →
      e ∉ (HashSetStriped.Remove hash s e).1.table_.flatten ∧
      (∀ x, x ≠ e →
        (x ∈ (HashSetStriped.Remove hash s e).1.table_.flatten ↔
          x ∈ s.table_.flatten)) ∧
      (HashSetStriped.Remove hash s e).1.size_ + 1 = s.size_) := by
  obtain ⟨hpos, hsize, hplaced, hnodup, hcap⟩ := hinv
  by_cases hmem : e ∈ s.table_.flatten
  · have hbk : e ∈ s.table_.getD (hash e % s.capacity_) [] := by
      rw [hcap]
      exact placed_mem_home_bucket hplaced hmem
    have hidx : hash e % s.capacity_ < s.table_.length := lt_length_of_mem_getD hbk
    rw [striped_Remove_eq_of_mem hash s e hbk]
    have hperm := flatten_set_eraseFirst_perm s.table_ e _ hidx hbk
    have hnodup2 := hperm.nodup_iff.mpr hnodup
    have hnotmem2 := (List.nodup_cons.mp hnodup2).1
    have hnodup3 := (List.nodup_cons.mp hnodup2).2
    have hlen2 : (s.table_.set (hash e % s.capacity_)
        (eraseFirst (s.table_.getD (hash e % s.capacity_) []) e)).flatten.length + 1 =
        s.table_.flatten.length := by
      have := hperm.length_eq
      simpa using this
    have hszpos : 0 < s.size_ := by
      rw [hsize]
      have : s.table_.flatten ≠ [] := fun hnil => by
        rw [hnil] at hmem
        cases hmem
      exact List.length_pos.mpr this
    have hpl2 : BucketsPlaced hash (s.table_.set (hash e % s.capacity_)
        (eraseFirst (s.table_.getD (hash e % s.capacity_) []) e)) := by
      apply placed_set hplaced
      intro x hx
      have hxb := mem_of_mem_eraseFirst hx
      have hi : x ∈ s.table_.get ⟨hash e % s.capacity_, hidx⟩ := by
        rw [List.get_eq_getElem, ← List.getD_eq_getElem s.table_ [] hidx]
        exact hxb
      exact hplaced _ hidx x hi
    refine ⟨⟨?_, ?_, hpl2, hnodup3, ?_⟩, iff_of_true rfl hmem,
      fun h => absurd hmem h, ?_⟩
    · show 0 < (s.table_.set (hash e % s.capacity_)
        (eraseFirst (s.table_.getD (hash e % s.capacity_) []) e)).length
      rw [List.length_set]
      exact hpos
    · show s.size_ - 1 = (s.table_.set (hash e % s.capacity_)
        (eraseFirst (s.table_.getD (hash e % s.capacity_) []) e)).flatten.length
      omega
    · show s.capacity_ = (s.table_.set (hash e % s.capacity_)
        (eraseFirst (s.table_.getD (hash e % s.capacity_) []) e)).length
      rw [List.length_set]
      exact hcap
    · intro _
      refine ⟨hnotmem2, ?_, ?_⟩
      · intro x hxe
        have h1 := hperm.mem_iff (a := x)
        rw [List.mem_cons] at h1
        constructor
        · intro hx
          exact h1.mp (Or.inr hx)
        · intro hx
          rcases h1.mpr hx with h2 | h2
          · exact absurd h2 hxe
          · exact h2
      · show s.size_ - 1 + 1 = s.size_
        omega
  · rw [striped_Remove_eq_of_not_mem hash s e hmem]
    exact ⟨⟨hpos, hsize, hplaced, hnodup, hcap⟩,
      iff_of_false Bool.false_ne_true hmem,
      fun _ => rfl,
      fun h => absurd h hmem⟩

theorem striped_reach_inv (hash : α → Nat) (c : Nat) (hc : 0 < c)
    (s : HashSetStriped α) (hr : StripedReach hash c s) : StripedInv hash s := by
  induction hr with
  | init =>
    refine ⟨?_, ?_, placed_replicate hash c, ?_, ?_⟩
    · show 0 < (List.replicate c ([] : List α)).length
      simpa using hc
    · show (0 : Nat) = (List.replicate c ([] : List α)).flatten.length
      rw [flatten_replicate_nil]
      rfl
    · show (List.replicate c ([] : List α)).flatten.Nodup
      rw [flatten_replicate_nil]
      exact List.nodup_nil
    · show c = (List.replicate c ([] : List α)).length
      simp
  | add s e _ ih => exact (striped_Add_spec hash s e ih).1
  | remove s e _ ih => exact (striped_Remove_spec hash s e ih).1


/-! ## Refinable strategy: operation characterisations -/

theorem refinable_resize_of_flag (hash : α → Nat) (s : HashSetRefinable α)
    (oc : Nat) (hflag : s.resizing_flag_ = true) : s.resize hash oc = s := by
  simp only [HashSetRefinable.resize, hflag, if_true]

theorem refinable_resize_of_stale (hash : α → Nat) (s : HashSetRefinable α)
    (oc : Nat) (hflag : s.resizing_flag_ = false) (hne : oc ≠ s.capacity_) :
    s.resize hash oc = s := by
  obtain ⟨t, l, n, c, f⟩ := s
  dsimp only at hflag hne
  subst hflag
  simp only [HashSetRefinable.resize, Bool.false_eq_true, if_false]
  rw [if_pos hne]

theorem refinable_resize_eq (hash : α → Nat) (s : HashSetRefinable α)
    (hflag : s.resizing_flag_ = false) :
    s.resize hash s.capacity_ =
      { table_ := s.table_.flatten.foldl (rehashStep hash (s.capacity_ * 2))
          (List.replicate (s.capacity_ * 2) []),
        locks_ := s.locks_ + s.capacity_,
        size_ := s.size_,
        capacity_ := s.capacity_ * 2,
        resizing_flag_ := false } := by
  obtain ⟨t, l, n, c, f⟩ := s
  dsimp only at hflag ⊢
  subst hflag
  simp only [HashSetRefinable.resize, Bool.false_eq_true, if_false]
  rw [if_neg (fun h => h rfl)]

theorem refinable_resize_spec (hash : α → Nat) (s : HashSetRefinable α)
    (hflag : s.resizing_flag_ = false) (hpos : 0 < s.capacity_) :
    (s.resize hash s.capacity_).table_.flatten.Perm s.table_.flatten ∧
    (s.resize hash s.capacity_).table_.length = s.capacity_ * 2 ∧
    (s.resize hash s.capacity_).capacity_ = s.capacity_ * 2 ∧
    BucketsPlaced hash (s.resize hash s.capacity_).table_ ∧
    (s.resize hash s.capacity_).size_ = s.size_ ∧
    (s.resize hash s.capacity_).locks_ = s.locks_ + s.capacity_ ∧
    (s.resize hash s.capacity_).resizing_flag_ = false := by
  rw [refinable_resize_eq hash s hflag]
  refine ⟨?_, ?_, rfl, ?_, rfl, rfl, rfl⟩
  · have hperm := rehashFold_flatten_perm hash (s.capacity_ * 2) (by omega)
      s.table_.flatten (List.replicate (s.capacity_ * 2) []) (by simp)
    simpa [flatten_replicate_nil] using hperm
  · show (s.table_.flatten.foldl (rehashStep hash (s.capacity_ * 2))
      (List.replicate (s.capacity_ * 2) [])).length = s.capacity_ * 2
    rw [rehashFold_length]
    simp
  · show BucketsPlaced hash (s.table_.flatten.foldl (rehashStep hash (s.capacity_ * 2))
      (List.replicate (s.capacity_ * 2) []))
    exact rehashFold_placed hash _ _ _ (by simp) (placed_replicate hash _)

theorem refinable_resize_inv (hash : α → Nat) (s : HashSetRefinable α)
    (hinv : RefinableInv hash s) : RefinableInv hash (s.resize hash s.capacity_) := by
  obtain ⟨hpos, hsize, _, hnodup, hcap, hlocks, hflag⟩ := hinv
  obtain ⟨hperm, hlen, hcap2, hpl, hsz, hlk, hfl⟩ :=
    refinable_resize_spec hash s hflag (by rw [hcap]; exact hpos)
  refine ⟨?_, ?_, hpl, ?_, ?_, ?_, hfl⟩
  · rw [hlen]
    omega
  · rw [hsz, hperm.length_eq, hsize]
  · exact hperm.nodup_iff.mpr hnodup
  · rw [hlen, hcap2]
  · rw [hlk, hcap2, hlocks]
    omega

theorem refinable_Add_eq_of_mem (hash : α → Nat) (s : HashSetRefinable α) (e : α)
    (hbk : e ∈ s.table_.getD (hash e % s.capacity_) []) :
    HashSetRefinable.Add hash s e = (s, false) := by
  obtain ⟨t, l, n, c, f⟩ := s
  simp only [HashSetRefinable.Add, FindOrPushBack_of_mem hbk, set_getD_self,
    Bool.not_false, if_true, Bool.false_eq_true, if_false]

theorem refinable_Add_eq_of_not_mem (hash : α → Nat) (s : HashSetRefinable α) (e : α)
    (hbk : e ∉ s.table_.getD (hash e % s.capacity_) []) :
    HashSetRefinable.Add hash s e =
      (if (refinableInsertState hash s e).size_ / s.capacity_ > 4
       then ((refinableInsertState hash s e).resize hash s.capacity_, true)
       else (refinableInsertState hash s e, true)) := by
  simp only [HashSetRefinable.Add, FindOrPushBack_of_not_mem hbk, if_true,
    Bool.not_true, Bool.false_eq_true, if_false, refinableInsertState]

theorem refinableInsertState_spec (hash : α → Nat) (s : HashSetRefinable α) (e : α)
    (hinv : RefinableInv hash s) (hmem : e ∉ s.table_.flatten) :
    RefinableInv hash (refinableInsertState hash s e) ∧
    (refinableInsertState hash s e).table_.flatten.Perm (e :: s.table_.flatten) := by
  obtain ⟨hpos, hsize, hplaced, hnodup, hcap, hlocks, hflag⟩ := hinv
  have hidx : hash e % s.capacity_ < s.table_.length := by
    rw [hcap]
    exact Nat.mod_lt _ (by rw [← hcap]; omega)
  have hperm1 : (refinableInsertState hash s e).table_.flatten.Perm
      (e :: s.table_.flatten) := by
    show (s.table_.set (hash e % s.capacity_)
      (s.table_.getD (hash e % s.capacity_) [] ++ [e])).flatten.Perm
      (e :: s.table_.flatten)
    exact flatten_set_append_perm s.table_ e _ hidx
  have hpl1 : BucketsPlaced hash (refinableInsertState hash s e).table_ := by
    show BucketsPlaced hash (s.table_.set (hash e % s.capacity_)
      (s.table_.getD (hash e % s.capacity_) [] ++ [e]))
    apply placed_set hplaced
    intro x hx
    rcases List.mem_append.mp hx with h1 | h1
    · have hi : x ∈ s.table_.get ⟨hash e % s.capacity_, hidx⟩ := by
        rw [List.get_eq_getElem, ← List.getD_eq_getElem s.table_ [] hidx]
        exact h1
      exact hplaced _ hidx x hi
    · rw [List.mem_singleton.mp h1, ← hcap]
  have hnodup1 : (refinableInsertState hash s e).table_.flatten.Nodup :=
    hperm1.nodup_iff.mpr (List.nodup_cons.mpr ⟨hmem, hnodup⟩)
  refine ⟨⟨?_, ?_, hpl1, hnodup1, ?_, hlocks, hflag⟩, hperm1⟩
  · show 0 < (s.table_.set (hash e % s.capacity_)
      (s.table_.getD (hash e % s.capacity_) [] ++ [e])).length
    rw [List.length_set]
    exact hpos
  · show s.size_ + 1 = (refinableInsertState hash s e).table_.flatten.length
    rw [hperm1.length_eq]
    simp [hsize]
  · show s.capacity_ = (s.table_.set (hash e % s.capacity_)
      (s.table_.getD (hash e % s.capacity_) [] ++ [e])).length
    rw [List.length_set]
    exact hcap

theorem refinable_Add_spec (hash : α → Nat) (s : HashSetRefinable α) (e : α)
    (hinv : RefinableInv hash s) :
    RefinableInv hash (HashSetRefinable.Add hash s e).1 ∧
    ((HashSetRefinable.Add hash s e).2 = true ↔ e ∉ s.table_.flatten) ∧
    (∀ x, x ∈ (HashSetRefinable.Add hash s e).1.table_.flatten ↔
      x = e ∨ x ∈ s.table_.flatten) ∧
    ((HashSetRefinable.Add hash s e).1.size_ =
      if e ∈ s.table_.flatten then s.size_ else s.size_ + 1) := by
  by_cases hmem : e ∈ s.table_.flatten
  · have hbk : e ∈ s.table_.getD (hash e % s.capacity_) [] := by
      rw [hinv.2.2.2.2.1]
      exact placed_mem_home_bucket hinv.2.2.1 hmem
    rw [refinable_Add_eq_of_mem hash s e hbk]
    exact ⟨hinv,
      iff_of_false Bool.false_ne_true (not_not_intro hmem),
      fun x => ⟨Or.inr, fun h => h.elim (fun hxe => hxe.symm ▸ hmem) id⟩,
      by rw [if_pos hmem]⟩
  · have hbk : e ∉ s.table_.getD (hash e % s.capacity_) [] :=
      fun h => hmem (mem_flatten_of_mem_getD h)
    rw [refinable_Add_eq_of_not_mem hash s e hbk]
    obtain ⟨hinv1, hperm1⟩ := refinableInsertState_spec hash s e hinv hmem
    by_cases hpol : (refinableInsertState hash s e).size_ / s.capacity_ > 4
    · obtain ⟨hperm2, hlen2, hcap2, hpl2, hsz2, hlk2, hfl2⟩ :=
        refinable_resize_spec hash (refinableInsertState hash s e)
          hinv1.2.2.2.2.2.2
          (by show 0 < s.capacity_
              rw [hinv.2.2.2.2.1]
              exact hinv.1)
      rw [if_pos hpol]
      refine ⟨?_, iff_of_true rfl hmem, ?_, by rw [if_neg hmem]; exact hsz2⟩
      · exact refinable_resize_inv hash _ hinv1
      · intro x
        show x ∈ (HashSetRefinable.resize hash (refinableInsertState hash s e)
          (refinableInsertState hash s e).capacity_).table_.flatten ↔
          x = e ∨ x ∈ s.table_.flatten
        rw [hperm2.mem_iff, hperm1.mem_iff, List.mem_cons]
    · rw [if_neg hpol]
      refine ⟨hinv1, iff_of_true rfl hmem, ?_, by rw [if_neg hmem]; rfl⟩
      intro x
      rw [show ((refinableInsertState hash s e, true)).1 =
        refinableInsertState hash s e from rfl]
      rw [hperm1.mem_iff, List.mem_cons]

theorem refinable_Remove_eq_of_not_mem (hash : α → Nat) (s : HashSetRefinable α)
    (e : α) (hmem : e ∉ s.table_.flatten) :
    HashSetRefinable.Remove hash s e = (s, false) := by
  have hbk : e ∉ s.table_.getD (hash e % s.capacity_) [] :=
    fun h => hmem (mem_flatten_of_mem_getD h)
  obtain ⟨t, l, n, c, f⟩ := s
  simp only [HashSetRefinable.Remove, FindAndErase_of_not_mem hbk, set_getD_self,
    Bool.false_eq_true, if_false]

theorem refinable_Remove_eq_of_mem (hash : α → Nat) (s : HashSetRefinable α) (e : α)
    (hbk : e ∈ s.table_.getD (hash e % s.capacity_) []) :
    HashSetRefinable.Remove hash s e =
      ({ s with
          table_ := s.table_.set (hash e % s.capacity_)
            (eraseFirst (s.table_.getD (hash e % s.capacity_) []) e),
          size_ := s.size_ - 1 }, true) := by
  simp only [HashSetRefinable.Remove, FindAndErase_of_mem hbk, if_true]

theorem refinable_Remove_spec (hash : α → Nat) (s : HashSetRefinable α) (e : α)
    (hinv : RefinableInv hash s) :
    RefinableInv hash (HashSetRefinable.Remove hash s e).1 ∧
    ((HashSetRefinable.Remove hash s e).2 = true ↔ e ∈ s.table_.flatten) ∧
    (e ∉ s.table_.flatten → (HashSetRefinable.Remove hash s e).1 = s) ∧
    (e ∈ s.table_.flatten →
      e ∉ (HashSetRefinable.Remove hash s e).1.table_.flatten ∧
      (∀ x, x ≠ e →
        (x ∈ (HashSetRefinable.Remove hash s e).1.table_.flatten ↔
          x ∈ s.table_.flatten)) ∧
      (HashSetRefinable.Remove hash s e).1.size_ + 1 = s.size_) := by
  obtain ⟨hpos, hsize, hplaced, hnodup, hcap, hlocks, hflag⟩ := hinv
  by_cases hmem : e ∈ s.table_.flatten
  · have hbk : e ∈ s.table_.getD (hash e % s.capacity_) [] := by
      rw [hcap]
      exact placed_mem_home_bucket hplaced hmem
    have hidx : hash e % s.capacity_ < s.table_.length := lt_length_of_mem_getD hbk
    rw [refinable_Remove_eq_of_mem hash s e hbk]
    have hperm := flatten_set_eraseFirst_perm s.table_ e _ hidx hbk
    have hnodup2 := hperm.nodup_iff.mpr hnodup
    have hnotmem2 := (List.nodup_cons.mp hnodup2).1
    have hnodup3 := (List.nodup_cons.mp hnodup2).2
    have hlen2 : (s.table_.set (hash e % s.capacity_)
        (eraseFirst (s.table_.getD (hash e % s.capacity_) []) e)).flatten.length + 1 =
        s.table_.flatten.length := by
      have := hperm.length_eq
      simpa using this
    have hszpos : 0 < s.size_ := by
      rw [hsize]
      have : s.table_.flatten ≠ [] := fun hnil => by
        rw [hnil] at hmem
        cases hmem
      exact List.length_pos.mpr this
    have hpl2 : BucketsPlaced hash (s.table_.set (hash e % s.capacity_)
        (eraseFirst (s.table_.getD (hash e % s.capacity_) []) e)) := by
      apply placed_set hplaced
      intro x hx
      have hxb := mem_of_mem_eraseFirst hx
      have hi : x ∈ s.table_.get ⟨hash e % s.capacity_, hidx⟩ := by
        rw [List.get_eq_getElem, ← List.getD_eq_getElem s.table_ [] hidx]
        exact hxb
      exact hplaced _ hidx x hi
    refine ⟨⟨?_, ?_, hpl2, hnodup3, ?_, hlocks, hflag⟩, iff_of_true rfl hmem,
      fun h => absurd hmem h, ?_⟩
    · show 0 < (s.table_.set (hash e % s.capacity_)
        (eraseFirst (s.table_.getD (hash e % s.capacity_) []) e)).length
      rw [List.length_set]
      exact hpos
    · show s.size_ - 1 = (s.table_.set (hash e % s.capacity_)
        (eraseFirst (s.table_.getD (hash e % s.capacity_) []) e)).flatten.length
      omega
    · show s.capacity_ = (s.table_.set (hash e % s.capacity_)
        (eraseFirst (s.table_.getD (hash e % s.capacity_) []) e)).length
      rw [List.length_set]
      exact hcap
    · intro _
      refine ⟨hnotmem2, ?_, ?_⟩
      · intro x hxe
        have h1 := hperm.mem_iff (a := x)
        rw [List.mem_cons] at h1
        constructor
        · intro hx
          exact h1.mp (Or.inr hx)
        · intro hx
          rcases h1.mpr hx with h2 | h2
          · exact absurd h2 hxe
          · exact h2
      · show s.size_ - 1 + 1 = s.size_
        omega
  · rw [refinable_Remove_eq_of_not_mem hash s e hmem]
    exact ⟨⟨hpos, hsize, hplaced, hnodup, hcap, hlocks, hflag⟩,
      iff_of_false Bool.false_ne_true hmem,
      fun _ => rfl,
      fun h => absurd h hmem⟩

theorem refinable_reach_inv (hash : α → Nat) (c : Nat) (hc : 0 < c)
    (s : HashSetRefinable α) (hr : RefinableReach hash c s) : RefinableInv hash s := by
  induction hr with
  | init =>
    refine ⟨?_, ?_, placed_replicate hash c, ?_, ?_, rfl, rfl⟩
    · show 0 < (List.replicate c ([] : List α)).length
      simpa using hc
    · show (0 : Nat) = (List.replicate c ([] : List α)).flatten.length
      rw [flatten_replicate_nil]
      rfl
    · show (List.replicate c ([] : List α)).flatten.Nodup
      rw [flatten_replicate_nil]
      exact List.nodup_nil
    · show c = (List.replicate c ([] : List α)).length
      simp
  | add s e _ ih => exact (refinable_Add_spec hash s e ih).1
  | remove s e _ ih => exact (refinable_Remove_spec hash s e ih).1


/-! ## Lock-trace lemmas -/

theorem foldl_applyLockEvent_acquires (l : List Nat) :
    ∀ acc : List Nat, (l.map LockEvent.acquire).foldl applyLockEvent acc = acc ++ l := by
  induction l with
  | nil => intro acc; simp
  | cons i is ih =>
    intro acc
    rw [List.map_cons, List.foldl_cons]
    rw [ih]
    show (acc ++ [i]) ++ is = acc ++ i :: is
    simp

theorem foldl_applyLockEvent_pairs (l : List Nat) :
    (l.flatMap (fun i => [LockEvent.acquire i, LockEvent.release i])).foldl
      applyLockEvent [] = [] := by
  induction l with
  | nil => rfl
  | cons i is ih =>
    rw [List.flatMap_cons, List.foldl_append]
    have h2 : [LockEvent.acquire i, LockEvent.release i].foldl applyLockEvent
        ([] : List Nat) = [] := by
      show ([i] : List Nat).erase i = []
      exact List.erase_cons_head i []
    rw [h2]
    exact ih

theorem heldAfter_striped_all (n : Nat) :
    heldAfter (stripedResizePrelock n) = List.range n := by
  unfold heldAfter stripedResizePrelock
  rw [foldl_applyLockEvent_acquires]
  simp

theorem heldAfter_refinable_none (n : Nat) :
    heldAfter (refinableResizePrelock n) = [] := by
  unfold heldAfter refinableResizePrelock
  exact foldl_applyLockEvent_pairs (List.range n)

theorem acquiredOrder_acquires (l : List Nat) :
    acquiredOrder (l.map LockEvent.acquire) = l := by
  induction l with
  | nil => rfl
  | cons i is ih =>
    simp only [acquiredOrder, List.map_cons, List.filterMap_cons] at ih ⊢
    rw [ih]

theorem acquiredOrder_pairs (l : List Nat) :
    acquiredOrder (l.flatMap (fun i => [LockEvent.acquire i, LockEvent.release i])) =
      l := by
  induction l with
  | nil => rfl
  | cons i is ih =>
    simp only [acquiredOrder, List.flatMap_cons, List.filterMap_append,
      List.filterMap_cons, List.filterMap_nil] at ih ⊢
    simp [ih]

theorem acquiredOrder_striped (n : Nat) :
    acquiredOrder (stripedResizePrelock n) = List.range n :=
  acquiredOrder_acquires (List.range n)

theorem acquiredOrder_refinable (n : Nat) :
    acquiredOrder (refinableResizePrelock n) = List.range n :=
  acquiredOrder_pairs (List.range n)

/-! ## Frame lemmas for `Remove` -/

theorem seq_Remove_frame (hash : α → Nat) (s : HashSetSequential α) (e : α) :
    (HashSetSequential.Remove hash s e).1.table_.length = s.table_.length ∧
    ∀ j, j ≠ hash e % s.table_.length →
      (HashSetSequential.Remove hash s e).1.table_.getD j [] = s.table_.getD j [] := by
  constructor
  · show (s.table_.set (hash e % s.table_.length)
      (FindAndErase (s.table_.getD (hash e % s.table_.length) []) e).1).length =
      s.table_.length
    exact List.length_set _ _ _
  · intro j hj
    show (s.table_.set (hash e % s.table_.length)
      (FindAndErase (s.table_.getD (hash e % s.table_.length) []) e).1).getD j [] =
      s.table_.getD j []
    exact getD_set_ne _ _ _ _ hj

theorem coarse_Remove_frame (hash : α → Nat) (s : HashSetCoarseGrained α) (e : α) :
    (HashSetCoarseGrained.Remove hash s e).1.table_.length = s.table_.length ∧
    ∀ j, j ≠ hash e % s.table_.length →
      (HashSetCoarseGrained.Remove hash s e).1.table_.getD j [] =
        s.table_.getD j [] := by
  constructor
  · show (s.table_.set (hash e % s.table_.length)
      (FindAndErase (s.table_.getD (hash e % s.table_.length) []) e).1).length =
      s.table_.length
    exact List.length_set _ _ _
  · intro j hj
    show (s.table_.set (hash e % s.table_.length)
      (FindAndErase (s.table_.getD (hash e % s.table_.length) []) e).1).getD j [] =
      s.table_.getD j []
    exact getD_set_ne _ _ _ _ hj

theorem striped_Remove_frame (hash : α → Nat) (s : HashSetStriped α) (e : α) :
    (HashSetStriped.Remove hash s e).1.table_.length = s.table_.length ∧
    (HashSetStriped.Remove hash s e).1.capacity_ = s.capacity_ ∧
    (HashSetStriped.Remove hash s e).1.num_of_locks_ = s.num_of_locks_ ∧
    ∀ j, j ≠ hash e % s.capacity_ →
      (HashSetStriped.Remove hash s e).1.table_.getD j [] = s.table_.getD j [] := by
  refine ⟨?_, rfl, rfl, ?_⟩
  · show (s.table_.set (hash e % s.capacity_)
      (FindAndErase (s.table_.getD (hash e % s.capacity_) []) e).1).length =
      s.table_.length
    exact List.length_set _ _ _
  · intro j hj
    show (s.table_.set (hash e % s.capacity_)
      (FindAndErase (s.table_.getD (hash e % s.capacity_) []) e).1).getD j [] =
      s.table_.getD j []
    exact getD_set_ne _ _ _ _ hj

theorem refinable_Remove_frame (hash : α → Nat) (s : HashSetRefinable α) (e : α) :
    (HashSetRefinable.Remove hash s e).1.table_.length = s.table_.length ∧
    (HashSetRefinable.Remove hash s e).1.capacity_ = s.capacity_ ∧
    (HashSetRefinable.Remove hash s e).1.locks_ = s.locks_ ∧
    (HashSetRefinable.Remove hash s e).1.resizing_flag_ = s.resizing_flag_ ∧
    ∀ j, j ≠ hash e % s.capacity_ →
      (HashSetRefinable.Remove hash s e).1.table_.getD j [] = s.table_.getD j [] := by
  refine ⟨?_, rfl, rfl, rfl, ?_⟩
  · show (s.table_.set (hash e % s.capacity_)
      (FindAndErase (s.table_.getD (hash e % s.capacity_) []) e).1).length =
      s.table_.length
    exact List.length_set _ _ _
  · intro j hj
    show (s.table_.set (hash e % s.capacity_)
      (FindAndErase (s.table_.getD (hash e % s.capacity_) []) e).1).getD j [] =
      s.table_.getD j []
    exact getD_set_ne _ _ _ _ hj


/-! ## Claim theorems -/

/-- C5, counterexample: starting from a freshly constructed sequential set with
initial capacity 4 and adding {1,2,3,4,5} (identity hash), the table still has
4 buckets — no migration to capacity 8 happened, because the load-factor test
`size_ / capacity > 4` uses integer division and `5 / 4 = 1`. -/
theorem claim_C5_counterexample :
    (addAll (fun n => n) (HashSetSequential.init 4) [1, 2, 3, 4, 5]).table_.length = 4 ∧
    ¬(addAll (fun n => n) (HashSetSequential.init 4)
        [1, 2, 3, 4, 5]).table_.length = 8 := by
  decide

/-- C5, amended: adding {1,2,3,4,5} sequentially to a capacity-4 set triggers
no migration (the load-factor test `size / capacity > 4` with integer division
never fires, since 5 / 4 = 1), leaving capacity 4; afterwards Size() == 5,
Contains(3) == true, and Contains(9) == false. -/
theorem claim_C5_amended :
    (addAll (fun n => n) (HashSetSequential.init 4) [1, 2, 3, 4, 5]).table_.length = 4 ∧
    HashSetSequential.Size
      (addAll (fun n => n) (HashSetSequential.init 4) [1, 2, 3, 4, 5]) = 5 ∧
    HashSetSequential.Contains (fun n => n)
      (addAll (fun n => n) (HashSetSequential.init 4) [1, 2, 3, 4, 5]) 3 = true ∧
    HashSetSequential.Contains (fun n => n)
      (addAll (fun n => n) (HashSetSequential.init 4) [1, 2, 3, 4, 5]) 9 = false ∧
    HashSetSequential.policy
      (addAll (fun n => n) (HashSetSequential.init 4) [1, 2, 3, 4, 5]) = false := by
  decide

/-- C7, counterexample: a refinable state with capacity 4, empty table, lock
count 4 and the resizing flag clear, on which growth is *not* due
(`size / capacity = 0 / 4 = 0`, not `> 4`); calling `resize` with the matching
snapshot 4 wins the flag, does **not** re-validate the load factor, and
rebuilds anyway: capacity becomes 8, the table becomes 8 buckets and the lock
array grows to 8 — contradicting "clears the flag and returns without
modifying the table, the capacity, or the lock array". -/
theorem claim_C7_counterexample :
    (HashSetRefinable.init 4 : HashSetRefinable Nat).resizing_flag_ = false ∧
    ¬((HashSetRefinable.init 4 : HashSetRefinable Nat).size_ /
        (HashSetRefinable.init 4 : HashSetRefinable Nat).capacity_ > 4) ∧
    ((HashSetRefinable.init 4 : HashSetRefinable Nat).resize (fun n => n) 4).capacity_ = 8 ∧
    ((HashSetRefinable.init 4 : HashSetRefinable Nat).resize (fun n => n) 4).table_.length = 8 ∧
    ((HashSetRefinable.init 4 : HashSetRefinable Nat).resize (fun n => n) 4).locks_ = 8 := by
  decide

/-- C7, amended: after winning the IDLE → RESIZING transition, the refinable
resizer re-validates the *capacity* against the caller's snapshot (not the
load-factor condition); for every state in which the capacity has changed
since the snapshot, it clears the resizing flag and returns without modifying
the table, the capacity, or the lock array — and a thread that loses the
compare-and-set returns immediately with the state unchanged. -/
theorem claim_C7_amended (hash : α → Nat) (s : HashSetRefinable α) (oc : Nat) :
    (s.resizing_flag_ = true → s.resize hash oc = s) ∧
    (s.resizing_flag_ = false → oc ≠ s.capacity_ → s.resize hash oc = s) :=
  ⟨fun hflag => refinable_resize_of_flag hash s oc hflag,
   fun hflag hne => refinable_resize_of_stale hash s oc hflag hne⟩

/-- C7, witness: concrete application of the amended theorem — a stale
snapshot (5 against current capacity 4) makes `resize` a no-op. -/
theorem claim_C7_witness :
    (HashSetRefinable.init 4 : HashSetRefinable Nat).resize (fun n => n) 5 =
      HashSetRefinable.init 4 :=
  (claim_C7_amended (fun n => n) (HashSetRefinable.init 4) 5).2 rfl (by decide)

/-- C8, counterexample: with a single bucket lock, the striped `resize` still
holds lock 0 when its rebuild starts, but the refinable `resize` holds no lock
at that point — it locked and immediately unlocked each bucket mutex, so it
does not "hold all of them throughout the rebuild". -/
theorem claim_C8_counterexample :
    0 ∈ heldAfter (stripedResizePrelock 1) ∧
    0 ∉ heldAfter (refinableResizePrelock 1) := by
  decide

/-- C8, amended: both migrations visit every per-bucket/stripe lock in
ascending index order; the striped `resize` holds all of them throughout the
rebuild, while the refinable `resize` only locks and immediately unlocks each
(a wait-for-quiescence pass) and starts its rebuild holding none of them,
relying on the resizing flag to exclude concurrent operations. -/
theorem claim_C8_amended (n : Nat) :
    acquiredOrder (stripedResizePrelock n) = List.range n ∧
    heldAfter (stripedResizePrelock n) = List.range n ∧
    acquiredOrder (refinableResizePrelock n) = List.range n ∧
    heldAfter (refinableResizePrelock n) = [] :=
  ⟨acquiredOrder_striped n, heldAfter_striped_all n,
   acquiredOrder_refinable n, heldAfter_refinable_none n⟩


/-- C2: on every state on which a migration actually runs (for striped: the
capacity snapshot matches; for refinable: the flag is won and the snapshot
matches), the multiset of elements after the migration is a permutation of
the elements before it (nothing lost, nothing duplicated), the new table has
exactly double the capacity, and every element sits in the bucket
`hash(element) mod new_capacity` of the new table. -/
theorem claim_C2_migration (hash : α → Nat) :
    (∀ s : HashSetSequential α,
      (s.resize hash).table_.flatten.Perm s.table_.flatten ∧
      (s.resize hash).table_.length = s.table_.length * 2 ∧
      BucketsPlaced hash (s.resize hash).table_) ∧
    (∀ s : HashSetCoarseGrained α,
      (s.resize hash).table_.flatten.Perm s.table_.flatten ∧
      (s.resize hash).table_.length = s.table_.length * 2 ∧
      BucketsPlaced hash (s.resize hash).table_) ∧
    (∀ s : HashSetStriped α, 0 < s.capacity_ →
      (s.resize hash s.capacity_).table_.flatten.Perm s.table_.flatten ∧
      (s.resize hash s.capacity_).capacity_ = s.capacity_ * 2 ∧
      (s.resize hash s.capacity_).table_.length = s.capacity_ * 2 ∧
      BucketsPlaced hash (s.resize hash s.capacity_).table_) ∧
    (∀ s : HashSetRefinable α, s.resizing_flag_ = false → 0 < s.capacity_ →
      (s.resize hash s.capacity_).table_.flatten.Perm s.table_.flatten ∧
      (s.resize hash s.capacity_).capacity_ = s.capacity_ * 2 ∧
      (s.resize hash s.capacity_).table_.length = s.capacity_ * 2 ∧
      BucketsPlaced hash (s.resize hash s.capacity_).table_) := by
  refine ⟨?_, ?_, ?_, ?_⟩
  · intro s
    obtain ⟨h1, h2, h3, _⟩ := seq_resize_spec hash s
    exact ⟨h1, h2, h3⟩
  · intro s
    obtain ⟨h1, h2, h3, _⟩ := coarse_resize_spec hash s
    exact ⟨h1, h2, h3⟩
  · intro s hpos
    obtain ⟨h1, h2, h3, h4, _, _⟩ := striped_resize_spec hash s hpos
    exact ⟨h1, h3, h2, h4⟩
  · intro s hflag hpos
    obtain ⟨h1, h2, h3, h4, _, _, _⟩ := refinable_resize_spec hash s hflag hpos
    exact ⟨h1, h3, h2, h4⟩

/-- C2, witness: concrete migrations of all four strategies. -/
theorem claim_C2_witness :
    ((HashSetSequential.init 1 : HashSetSequential Nat).resize (fun n => n)).table_.length = 2 ∧
    ((HashSetCoarseGrained.init 1 : HashSetCoarseGrained Nat).resize (fun n => n)).table_.length = 2 ∧
    ((HashSetStriped.init 2 : HashSetStriped Nat).resize (fun n => n) 2).capacity_ = 4 ∧
    ((HashSetRefinable.init 2 : HashSetRefinable Nat).resize (fun n => n) 2).capacity_ = 4 :=
  ⟨((claim_C2_migration (fun n => n)).1 (HashSetSequential.init 1)).2.1,
   ((claim_C2_migration (fun n => n)).2.1 (HashSetCoarseGrained.init 1)).2.1,
   ((claim_C2_migration (fun n => n)).2.2.1 (HashSetStriped.init 2) (by decide)).2.1,
   ((claim_C2_migration (fun n => n)).2.2.2 (HashSetRefinable.init 2) rfl (by decide)).2.1⟩

/-- C3: for every strategy and every state reachable from construction with a
positive capacity by completed Add/Remove calls (including through any number
of migrations), every element stored in bucket `i` satisfies
`hash(element) mod capacity == i`, where the capacity is the current table
length. -/
theorem claim_C3_bucket_placement (hash : α → Nat) (capacity : Nat)
    (hcap : 0 < capacity) :
    (∀ s : HashSetSequential α, SeqReach hash capacity s →
      BucketsPlaced hash s.table_) ∧
    (∀ s : HashSetCoarseGrained α, CoarseReach hash capacity s →
      BucketsPlaced hash s.table_) ∧
    (∀ s : HashSetStriped α, StripedReach hash capacity s →
      BucketsPlaced hash s.table_) ∧
    (∀ s : HashSetRefinable α, RefinableReach hash capacity s →
      BucketsPlaced hash s.table_) :=
  ⟨fun s hr => (seq_reach_inv hash capacity hcap s hr).2.2.1,
   fun s hr => (coarse_reach_inv hash capacity hcap s hr).2.2.1,
   fun s hr => (striped_reach_inv hash capacity hcap s hr).2.2.1,
   fun s hr => (refinable_reach_inv hash capacity hcap s hr).2.2.1⟩

/-- C3, witness: the placement invariant at the freshly constructed states. -/
theorem claim_C3_witness :
    BucketsPlaced (fun n => n) (HashSetSequential.init 1 : HashSetSequential Nat).table_ ∧
    BucketsPlaced (fun n => n) (HashSetCoarseGrained.init 1 : HashSetCoarseGrained Nat).table_ ∧
    BucketsPlaced (fun n => n) (HashSetStriped.init 1 : HashSetStriped Nat).table_ ∧
    BucketsPlaced (fun n => n) (HashSetRefinable.init 1 : HashSetRefinable Nat).table_ :=
  ⟨(claim_C3_bucket_placement (fun n => n) 1 (by decide)).1
      (HashSetSequential.init 1) SeqReach.init,
   (claim_C3_bucket_placement (fun n => n) 1 (by decide)).2.1
      (HashSetCoarseGrained.init 1) CoarseReach.init,
   (claim_C3_bucket_placement (fun n => n) 1 (by decide)).2.2.1
      (HashSetStriped.init 1) StripedReach.init,
   (claim_C3_bucket_placement (fun n => n) 1 (by decide)).2.2.2
      (HashSetRefinable.init 1) RefinableReach.init⟩

/-- C4: for every strategy, at every quiescent point (any state reachable by
completed operations from a positive-capacity construction), `Size()` equals
the sum of the bucket lengths, which equals the number of elements present
(the flattened table has no duplicates, so its length counts the distinct
elements present). -/
theorem claim_C4_size_consistency (hash : α → Nat) (capacity : Nat)
    (hcap : 0 < capacity) :
    (∀ s : HashSetSequential α, SeqReach hash capacity s →
      HashSetSequential.Size s = (s.table_.map List.length).sum ∧
      (s.table_.map List.length).sum = s.table_.flatten.length ∧
      s.table_.flatten.Nodup) ∧
    (∀ s : HashSetCoarseGrained α, CoarseReach hash capacity s →
      HashSetCoarseGrained.Size s = (s.table_.map List.length).sum ∧
      (s.table_.map List.length).sum = s.table_.flatten.length ∧
      s.table_.flatten.Nodup) ∧
    (∀ s : HashSetStriped α, StripedReach hash capacity s →
      HashSetStriped.Size s = (s.table_.map List.length).sum ∧
      (s.table_.map List.length).sum = s.table_.flatten.length ∧
      s.table_.flatten.Nodup) ∧
    (∀ s : HashSetRefinable α, RefinableReach hash capacity s →
      HashSetRefinable.Size s = (s.table_.map List.length).sum ∧
      (s.table_.map List.length).sum = s.table_.flatten.length ∧
      s.table_.flatten.Nodup) := by
  refine ⟨?_, ?_, ?_, ?_⟩
  · intro s hr
    obtain ⟨_, hsize, _, hnodup⟩ := seq_reach_inv hash capacity hcap s hr
    refine ⟨?_, (List.length_flatten _).symm, hnodup⟩
    show s.size_ = (s.table_.map List.length).sum
    rw [hsize, List.length_flatten]
  · intro s hr
    obtain ⟨_, hsize, _, hnodup⟩ := coarse_reach_inv hash capacity hcap s hr
    refine ⟨?_, (List.length_flatten _).symm, hnodup⟩
    show s.size_ = (s.table_.map List.length).sum
    rw [hsize, List.length_flatten]
  · intro s hr
    obtain ⟨_, hsize, _, hnodup, _⟩ := striped_reach_inv hash capacity hcap s hr
    refine ⟨?_, (List.length_flatten _).symm, hnodup⟩
    show s.size_ = (s.table_.map List.length).sum
    rw [hsize, List.length_flatten]
  · intro s hr
    obtain ⟨_, hsize, _, hnodup, _, _, _⟩ := refinable_reach_inv hash capacity hcap s hr
    refine ⟨?_, (List.length_flatten _).symm, hnodup⟩
    show s.size_ = (s.table_.map List.length).sum
    rw [hsize, List.length_flatten]

/-- C4, witness: size consistency at the freshly constructed states. -/
theorem claim_C4_witness :
    HashSetSequential.Size (HashSetSequential.init 1 : HashSetSequential Nat) =
      ((HashSetSequential.init 1 : HashSetSequential Nat).table_.map List.length).sum ∧
    HashSetCoarseGrained.Size (HashSetCoarseGrained.init 1 : HashSetCoarseGrained Nat) =
      ((HashSetCoarseGrained.init 1 : HashSetCoarseGrained Nat).table_.map List.length).sum ∧
    HashSetStriped.Size (HashSetStriped.init 1 : HashSetStriped Nat) =
      ((HashSetStriped.init 1 : HashSetStriped Nat).table_.map List.length).sum ∧
    HashSetRefinable.Size (HashSetRefinable.init 1 : HashSetRefinable Nat) =
      ((HashSetRefinable.init 1 : HashSetRefinable Nat).table_.map List.length).sum :=
  ⟨((claim_C4_size_consistency (fun n => n) 1 (by decide)).1
      (HashSetSequential.init 1) SeqReach.init).1,
   ((claim_C4_size_consistency (fun n => n) 1 (by decide)).2.1
      (HashSetCoarseGrained.init 1) CoarseReach.init).1,
   ((claim_C4_size_consistency (fun n => n) 1 (by decide)).2.2.1
      (HashSetStriped.init 1) StripedReach.init).1,
   ((claim_C4_size_consistency (fun n => n) 1 (by decide)).2.2.2
      (HashSetRefinable.init 1) RefinableReach.init).1⟩

/-- C9: for every strategy, under the precondition that the construction
capacity is positive, the capacity stays positive in every reachable state
(doubling preserves positivity), so `hash(element) mod capacity` is
well-defined (no division by zero) and the resulting bucket index is strictly
below the table length — every table access is in bounds. -/
theorem claim_C9_capacity_positive (hash : α → Nat) (capacity : Nat)
    (hcap : 0 < capacity) :
    (∀ s : HashSetSequential α, SeqReach hash capacity s →
      0 < s.table_.length ∧ ∀ e, hash e % s.table_.length < s.table_.length) ∧
    (∀ s : HashSetCoarseGrained α, CoarseReach hash capacity s →
      0 < s.table_.length ∧ ∀ e, hash e % s.table_.length < s.table_.length) ∧
    (∀ s : HashSetStriped α, StripedReach hash capacity s →
      0 < s.capacity_ ∧ ∀ e, hash e % s.capacity_ < s.table_.length) ∧
    (∀ s : HashSetRefinable α, RefinableReach hash capacity s →
      0 < s.capacity_ ∧ ∀ e, hash e % s.capacity_ < s.table_.length) := by
  refine ⟨?_, ?_, ?_, ?_⟩
  · intro s hr
    obtain ⟨hpos, _, _, _⟩ := seq_reach_inv hash capacity hcap s hr
    exact ⟨hpos, fun e => Nat.mod_lt _ hpos⟩
  · intro s hr
    obtain ⟨hpos, _, _, _⟩ := coarse_reach_inv hash capacity hcap s hr
    exact ⟨hpos, fun e => Nat.mod_lt _ hpos⟩
  · intro s hr
    obtain ⟨hpos, _, _, _, hc⟩ := striped_reach_inv hash capacity hcap s hr
    refine ⟨by rw [hc]; exact hpos, fun e => ?_⟩
    rw [hc]
    exact Nat.mod_lt _ hpos
  · intro s hr
    obtain ⟨hpos, _, _, _, hc, _, _⟩ := refinable_reach_inv hash capacity hcap s hr
    refine ⟨by rw [hc]; exact hpos, fun e => ?_⟩
    rw [hc]
    exact Nat.mod_lt _ hpos

/-- C9, witness: in-bounds accesses at the freshly constructed states. -/
theorem claim_C9_witness :
    (0 < (HashSetSequential.init 1 : HashSetSequential Nat).table_.length ∧
      (fun n => n) 7 % (HashSetSequential.init 1 : HashSetSequential Nat).table_.length <
        (HashSetSequential.init 1 : HashSetSequential Nat).table_.length) ∧
    (0 < (HashSetStriped.init 1 : HashSetStriped Nat).capacity_ ∧
      (fun n => n) 7 % (HashSetStriped.init 1 : HashSetStriped Nat).capacity_ <
        (HashSetStriped.init 1 : HashSetStriped Nat).table_.length) ∧
    (0 < (HashSetRefinable.init 1 : HashSetRefinable Nat).capacity_ ∧
      (fun n => n) 7 % (HashSetRefinable.init 1 : HashSetRefinable Nat).capacity_ <
        (HashSetRefinable.init 1 : HashSetRefinable Nat).table_.length) :=
  ⟨⟨((claim_C9_capacity_positive (fun n => n) 1 (by decide)).1
      (HashSetSequential.init 1) SeqReach.init).1,
    ((claim_C9_capacity_positive (fun n => n) 1 (by decide)).1
      (HashSetSequential.init 1) SeqReach.init).2 7⟩,
   ⟨((claim_C9_capacity_positive (fun n => n) 1 (by decide)).2.2.1
      (HashSetStriped.init 1) StripedReach.init).1,
    ((claim_C9_capacity_positive (fun n => n) 1 (by decide)).2.2.1
      (HashSetStriped.init 1) StripedReach.init).2 7⟩,
   ⟨((claim_C9_capacity_positive (fun n => n) 1 (by decide)).2.2.2
      (HashSetRefinable.init 1) RefinableReach.init).1,
    ((claim_C9_capacity_positive (fun n => n) 1 (by decide)).2.2.2
      (HashSetRefinable.init 1) RefinableReach.init).2 7⟩⟩

/-- C10: for every strategy, every state, and every element, `Remove` never
changes the table length (capacity), the published `capacity_`, the number of
locks, or the resizing flag — so it never triggers a migration — and it
modifies at most the single bucket `hash(e) mod capacity` (plus the size
counter): every other bucket is unchanged.  `Contains` performs no writes in
the source, so it is embedded as a pure function of the state and trivially
changes nothing; only `Add` contains a call to `resize`. -/
theorem claim_C10_remove_frame (hash : α → Nat) :
    (∀ (s : HashSetSequential α) (e : α),
      (HashSetSequential.Remove hash s e).1.table_.length = s.table_.length ∧
      ∀ j, j ≠ hash e % s.table_.length →
        (HashSetSequential.Remove hash s e).1.table_.getD j [] =
          s.table_.getD j []) ∧
    (∀ (s : HashSetCoarseGrained α) (e : α),
      (HashSetCoarseGrained.Remove hash s e).1.table_.length = s.table_.length ∧
      ∀ j, j ≠ hash e % s.table_.length →
        (HashSetCoarseGrained.Remove hash s e).1.table_.getD j [] =
          s.table_.getD j []) ∧
    (∀ (s : HashSetStriped α) (e : α),
      (HashSetStriped.Remove hash s e).1.table_.length = s.table_.length ∧
      (HashSetStriped.Remove hash s e).1.capacity_ = s.capacity_ ∧
      (HashSetStriped.Remove hash s e).1.num_of_locks_ = s.num_of_locks_ ∧
      ∀ j, j ≠ hash e % s.capacity_ →
        (HashSetStriped.Remove hash s e).1.table_.getD j [] =
          s.table_.getD j []) ∧
    (∀ (s : HashSetRefinable α) (e : α),
      (HashSetRefinable.Remove hash s e).1.table_.length = s.table_.length ∧
      (HashSetRefinable.Remove hash s e).1.capacity_ = s.capacity_ ∧
      (HashSetRefinable.Remove hash s e).1.locks_ = s.locks_ ∧
      (HashSetRefinable.Remove hash s e).1.resizing_flag_ = s.resizing_flag_ ∧
      ∀ j, j ≠ hash e % s.capacity_ →
        (HashSetRefinable.Remove hash s e).1.table_.getD j [] =
          s.table_.getD j []) :=
  ⟨fun s e => seq_Remove_frame hash s e,
   fun s e => coarse_Remove_frame hash s e,
   fun s e => striped_Remove_frame hash s e,
   fun s e => refinable_Remove_frame hash s e⟩

/-- C10, witness: removing element 0 from a two-bucket set leaves bucket 1
untouched, in all four strategies. -/
theorem claim_C10_witness :
    (HashSetSequential.Remove (fun n => n) (HashSetSequential.init 2 : HashSetSequential Nat)
      0).1.table_.getD 1 [] = (HashSetSequential.init 2 : HashSetSequential Nat).table_.getD 1 [] ∧
    (HashSetCoarseGrained.Remove (fun n => n) (HashSetCoarseGrained.init 2 : HashSetCoarseGrained Nat)
      0).1.table_.getD 1 [] = (HashSetCoarseGrained.init 2 : HashSetCoarseGrained Nat).table_.getD 1 [] ∧
    (HashSetStriped.Remove (fun n => n) (HashSetStriped.init 2 : HashSetStriped Nat)
      0).1.table_.getD 1 [] = (HashSetStriped.init 2 : HashSetStriped Nat).table_.getD 1 [] ∧
    (HashSetRefinable.Remove (fun n => n) (HashSetRefinable.init 2 : HashSetRefinable Nat)
      0).1.table_.getD 1 [] = (HashSetRefinable.init 2 : HashSetRefinable Nat).table_.getD 1 [] :=
  ⟨((claim_C10_remove_frame (fun n => n)).1 (HashSetSequential.init 2) 0).2 1 (by decide),
   ((claim_C10_remove_frame (fun n => n)).2.1 (HashSetCoarseGrained.init 2) 0).2 1 (by decide),
   ((claim_C10_remove_frame (fun n => n)).2.2.1 (HashSetStriped.init 2) 0).2.2.2 1 (by decide),
   ((claim_C10_remove_frame (fun n => n)).2.2.2 (HashSetRefinable.init 2) 0).2.2.2.2 1 (by decide)⟩


/-- C1: for every strategy, every reachable state (positive construction
capacity), and every element e: if e is not present, Add(e) returns true,
afterwards e is present and Size() is one greater; if e is already present,
Add(e) returns false and the logical set content and Size() are unchanged.
In particular, Add(e) twice in a row (no intervening remove) changes the set
once: the second call returns false and leaves the set content and size of
the first call's result unchanged. -/
theorem claim_C1_add_semantics (hash : α → Nat) (capacity : Nat)
    (hcap : 0 < capacity) :
    (∀ (s : HashSetSequential α) (e : α), SeqReach hash capacity s →
      (e ∉ s.table_.flatten →
        (HashSetSequential.Add hash s e).2 = true ∧
        e ∈ (HashSetSequential.Add hash s e).1.table_.flatten ∧
        HashSetSequential.Size (HashSetSequential.Add hash s e).1 = HashSetSequential.Size s + 1) ∧
      (e ∈ s.table_.flatten →
        (HashSetSequential.Add hash s e).2 = false ∧
        (∀ x, x ∈ (HashSetSequential.Add hash s e).1.table_.flatten ↔ x ∈ s.table_.flatten) ∧
        HashSetSequential.Size (HashSetSequential.Add hash s e).1 = HashSetSequential.Size s) ∧
      ((HashSetSequential.Add hash (HashSetSequential.Add hash s e).1 e).2 = false ∧
       (∀ x, x ∈ (HashSetSequential.Add hash (HashSetSequential.Add hash s e).1 e).1.table_.flatten ↔
          x ∈ (HashSetSequential.Add hash s e).1.table_.flatten) ∧
       HashSetSequential.Size (HashSetSequential.Add hash (HashSetSequential.Add hash s e).1 e).1 =
         HashSetSequential.Size (HashSetSequential.Add hash s e).1)) ∧
    (∀ (s : HashSetCoarseGrained α) (e : α), CoarseReach hash capacity s →
      (e ∉ s.table_.flatten →
        (HashSetCoarseGrained.Add hash s e).2 = true ∧
        e ∈ (HashSetCoarseGrained.Add hash s e).1.table_.flatten ∧
        HashSetCoarseGrained.Size (HashSetCoarseGrained.Add hash s e).1 = HashSetCoarseGrained.Size s + 1) ∧
      (e ∈ s.table_.flatten →
        (HashSetCoarseGrained.Add hash s e).2 = false ∧
        (∀ x, x ∈ (HashSetCoarseGrained.Add hash s e).1.table_.flatten ↔ x ∈ s.table_.flatten) ∧
        HashSetCoarseGrained.Size (HashSetCoarseGrained.Add hash s e).1 = HashSetCoarseGrained.Size s) ∧
      ((HashSetCoarseGrained.Add hash (HashSetCoarseGrained.Add hash s e).1 e).2 = false ∧
       (∀ x, x ∈ (HashSetCoarseGrained.Add hash (HashSetCoarseGrained.Add hash s e).1 e).1.table_.flatten ↔
          x ∈ (HashSetCoarseGrained.Add hash s e).1.table_.flatten) ∧
       HashSetCoarseGrained.Size (HashSetCoarseGrained.Add hash (HashSetCoarseGrained.Add hash s e).1 e).1 =
         HashSetCoarseGrained.Size (HashSetCoarseGrained.Add hash s e).1)) ∧
    (∀ (s : HashSetStriped α) (e : α), StripedReach hash capacity s →
      (e ∉ s.table_.flatten →
        (HashSetStriped.Add hash s e).2 = true ∧
        e ∈ (HashSetStriped.Add hash s e).1.table_.flatten ∧
        HashSetStriped.Size (HashSetStriped.Add hash s e).1 = HashSetStriped.Size s + 1) ∧
      (e ∈ s.table_.flatten →
        (HashSetStriped.Add hash s e).2 = false ∧
        (∀ x, x ∈ (HashSetStriped.Add hash s e).1.table_.flatten ↔ x ∈ s.table_.flatten) ∧
        HashSetStriped.Size (HashSetStriped.Add hash s e).1 = HashSetStriped.Size s) ∧
      ((HashSetStriped.Add hash (HashSetStriped.Add hash s e).1 e).2 = false ∧
       (∀ x, x ∈ (HashSetStriped.Add hash (HashSetStriped.Add hash s e).1 e).1.table_.flatten ↔
          x ∈ (HashSetStriped.Add hash s e).1.table_.flatten) ∧
       HashSetStriped.Size (HashSetStriped.Add hash (HashSetStriped.Add hash s e).1 e).1 =
         HashSetStriped.Size (HashSetStriped.Add hash s e).1)) ∧
    (∀ (s : HashSetRefinable α) (e : α), RefinableReach hash capacity s →
      (e ∉ s.table_.flatten →
        (HashSetRefinable.Add hash s e).2 = true ∧
        e ∈ (HashSetRefinable.Add hash s e).1.table_.flatten ∧
        HashSetRefinable.Size (HashSetRefinable.Add hash s e).1 = HashSetRefinable.Size s + 1) ∧
      (e ∈ s.table_.flatten →
        (HashSetRefinable.Add hash s e).2 = false ∧
        (∀ x, x ∈ (HashSetRefinable.Add hash s e).1.table_.flatten ↔ x ∈ s.table_.flatten) ∧
        HashSetRefinable.Size (HashSetRefinable.Add hash s e).1 = HashSetRefinable.Size s) ∧
      ((HashSetRefinable.Add hash (HashSetRefinable.Add hash s e).1 e).2 = false ∧
       (∀ x, x ∈ (HashSetRefinable.Add hash (HashSetRefinable.Add hash s e).1 e).1.table_.flatten ↔
          x ∈ (HashSetRefinable.Add hash s e).1.table_.flatten) ∧
       HashSetRefinable.Size (HashSetRefinable.Add hash (HashSetRefinable.Add hash s e).1 e).1 =
         HashSetRefinable.Size (HashSetRefinable.Add hash s e).1)) := by
  refine ⟨?_, ?_, ?_, ?_⟩
  · intro s e hr
    have hinv := seq_reach_inv hash capacity hcap s hr
    obtain ⟨hinv2, hiff, hmemiff, hsz⟩ := seq_Add_spec hash s e hinv
    refine ⟨?_, ?_, ?_⟩
    · intro hnot
      refine ⟨hiff.mpr hnot, (hmemiff e).mpr (Or.inl rfl), ?_⟩
      show (HashSetSequential.Add hash s e).1.size_ = s.size_ + 1
      rw [hsz, if_neg hnot]
    · intro hmem
      refine ⟨?_, ?_, ?_⟩
      · exact Bool.eq_false_iff.mpr (fun h => (hiff.mp h) hmem)
      · intro x
        rw [hmemiff x]
        exact ⟨fun h => h.elim (fun hxe => hxe.symm ▸ hmem) id, Or.inr⟩
      · show (HashSetSequential.Add hash s e).1.size_ = s.size_
        rw [hsz, if_pos hmem]
    · have hr2 : SeqReach hash capacity (HashSetSequential.Add hash s e).1 := SeqReach.add s e hr
      have hinv3 := seq_reach_inv hash capacity hcap _ hr2
      obtain ⟨_, hiff2, hmemiff2, hsz2⟩ := seq_Add_spec hash (HashSetSequential.Add hash s e).1 e hinv3
      have hmem2 : e ∈ (HashSetSequential.Add hash s e).1.table_.flatten :=
        (hmemiff e).mpr (Or.inl rfl)
      refine ⟨?_, ?_, ?_⟩
      · exact Bool.eq_false_iff.mpr (fun h => (hiff2.mp h) hmem2)
      · intro x
        rw [hmemiff2 x]
        exact ⟨fun h => h.elim (fun hxe => hxe.symm ▸ hmem2) id, Or.inr⟩
      · show (HashSetSequential.Add hash (HashSetSequential.Add hash s e).1 e).1.size_ = (HashSetSequential.Add hash s e).1.size_
        rw [hsz2, if_pos hmem2]
  · intro s e hr
    have hinv := coarse_reach_inv hash capacity hcap s hr
    obtain ⟨hinv2, hiff, hmemiff, hsz⟩ := coarse_Add_spec hash s e hinv
    refine ⟨?_, ?_, ?_⟩
    · intro hnot
      refine ⟨hiff.mpr hnot, (hmemiff e).mpr (Or.inl rfl), ?_⟩
      show (HashSetCoarseGrained.Add hash s e).1.size_ = s.size_ + 1
      rw [hsz, if_neg hnot]
    · intro hmem
      refine ⟨?_, ?_, ?_⟩
      · exact Bool.eq_false_iff.mpr (fun h => (hiff.mp h) hmem)
      · intro x
        rw [hmemiff x]
        exact ⟨fun h => h.elim (fun hxe => hxe.symm ▸ hmem) id, Or.inr⟩
      · show (HashSetCoarseGrained.Add hash s e).1.size_ = s.size_
        rw [hsz, if_pos hmem]
    · have hr2 : CoarseReach hash capacity (HashSetCoarseGrained.Add hash s e).1 := CoarseReach.add s e hr
      have hinv3 := coarse_reach_inv hash capacity hcap _ hr2
      obtain ⟨_, hiff2, hmemiff2, hsz2⟩ := coarse_Add_spec hash (HashSetCoarseGrained.Add hash s e).1 e hinv3
      have hmem2 : e ∈ (HashSetCoarseGrained.Add hash s e).1.table_.flatten :=
        (hmemiff e).mpr (Or.inl rfl)
      refine ⟨?_, ?_, ?_⟩
      · exact Bool.eq_false_iff.mpr (fun h => (hiff2.mp h) hmem2)
      · intro x
        rw [hmemiff2 x]
        exact ⟨fun h => h.elim (fun hxe => hxe.symm ▸ hmem2) id, Or.inr⟩
      · show (HashSetCoarseGrained.Add hash (HashSetCoarseGrained.Add hash s e).1 e).1.size_ = (HashSetCoarseGrained.Add hash s e).1.size_
        rw [hsz2, if_pos hmem2]
  · intro s e hr
    have hinv := striped_reach_inv hash capacity hcap s hr
    obtain ⟨hinv2, hiff, hmemiff, hsz⟩ := striped_Add_spec hash s e hinv
    refine ⟨?_, ?_, ?_⟩
    · intro hnot
      refine ⟨hiff.mpr hnot, (hmemiff e).mpr (Or.inl rfl), ?_⟩
      show (HashSetStriped.Add hash s e).1.size_ = s.size_ + 1
      rw [hsz, if_neg hnot]
    · intro hmem
      refine ⟨?_, ?_, ?_⟩
      · exact Bool.eq_false_iff.mpr (fun h => (hiff.mp h) hmem)
      · intro x
        rw [hmemiff x]
        exact ⟨fun h => h.elim (fun hxe => hxe.symm ▸ hmem) id, Or.inr⟩
      · show (HashSetStriped.Add hash s e).1.size_ = s.size_
        rw [hsz, if_pos hmem]
    · have hr2 : StripedReach hash capacity (HashSetStriped.Add hash s e).1 := StripedReach.add s e hr
      have hinv3 := striped_reach_inv hash capacity hcap _ hr2
      obtain ⟨_, hiff2, hmemiff2, hsz2⟩ := striped_Add_spec hash (HashSetStriped.Add hash s e).1 e hinv3
      have hmem2 : e ∈ (HashSetStriped.Add hash s e).1.table_.flatten :=
        (hmemiff e).mpr (Or.inl rfl)
      refine ⟨?_, ?_, ?_⟩
      · exact Bool.eq_false_iff.mpr (fun h => (hiff2.mp h) hmem2)
      · intro x
        rw [hmemiff2 x]
        exact ⟨fun h => h.elim (fun hxe => hxe.symm ▸ hmem2) id, Or.inr⟩
      · show (HashSetStriped.Add hash (HashSetStriped.Add hash s e).1 e).1.size_ = (HashSetStriped.Add hash s e).1.size_
        rw [hsz2, if_pos hmem2]
  · intro s e hr
    have hinv := refinable_reach_inv hash capacity hcap s hr
    obtain ⟨hinv2, hiff, hmemiff, hsz⟩ := refinable_Add_spec hash s e hinv
    refine ⟨?_, ?_, ?_⟩
    · intro hnot
      refine ⟨hiff.mpr hnot, (hmemiff e).mpr (Or.inl rfl), ?_⟩
      show (HashSetRefinable.Add hash s e).1.size_ = s.size_ + 1
      rw [hsz, if_neg hnot]
    · intro hmem
      refine ⟨?_, ?_, ?_⟩
      · exact Bool.eq_false_iff.mpr (fun h => (hiff.mp h) hmem)
      · intro x
        rw [hmemiff x]
        exact ⟨fun h => h.elim (fun hxe => hxe.symm ▸ hmem) id, Or.inr⟩
      · show (HashSetRefinable.Add hash s e).1.size_ = s.size_
        rw [hsz, if_pos hmem]
    · have hr2 : RefinableReach hash capacity (HashSetRefinable.Add hash s e).1 := RefinableReach.add s e hr
      have hinv3 := refinable_reach_inv hash capacity hcap _ hr2
      obtain ⟨_, hiff2, hmemiff2, hsz2⟩ := refinable_Add_spec hash (HashSetRefinable.Add hash s e).1 e hinv3
      have hmem2 : e ∈ (HashSetRefinable.Add hash s e).1.table_.flatten :=
        (hmemiff e).mpr (Or.inl rfl)
      refine ⟨?_, ?_, ?_⟩
      · exact Bool.eq_false_iff.mpr (fun h => (hiff2.mp h) hmem2)
      · intro x
        rw [hmemiff2 x]
        exact ⟨fun h => h.elim (fun hxe => hxe.symm ▸ hmem2) id, Or.inr⟩
      · show (HashSetRefinable.Add hash (HashSetRefinable.Add hash s e).1 e).1.size_ = (HashSetRefinable.Add hash s e).1.size_
        rw [hsz2, if_pos hmem2]

/-- C1, witness: adding 0 to a fresh one-bucket set returns true, makes 0
present, and bumps the size, in all four strategies. -/
theorem claim_C1_witness :
    ((HashSetSequential.Add (fun n => n) (HashSetSequential.init 1 : HashSetSequential Nat) 0).2 = true ∧
      0 ∈ (HashSetSequential.Add (fun n => n) (HashSetSequential.init 1 : HashSetSequential Nat) 0).1.table_.flatten ∧
      HashSetSequential.Size (HashSetSequential.Add (fun n => n) (HashSetSequential.init 1 : HashSetSequential Nat) 0).1 =
        HashSetSequential.Size (HashSetSequential.init 1 : HashSetSequential Nat) + 1) ∧
    ((HashSetCoarseGrained.Add (fun n => n) (HashSetCoarseGrained.init 1 : HashSetCoarseGrained Nat) 0).2 = true ∧
      0 ∈ (HashSetCoarseGrained.Add (fun n => n) (HashSetCoarseGrained.init 1 : HashSetCoarseGrained Nat) 0).1.table_.flatten ∧
      HashSetCoarseGrained.Size (HashSetCoarseGrained.Add (fun n => n) (HashSetCoarseGrained.init 1 : HashSetCoarseGrained Nat) 0).1 =
        HashSetCoarseGrained.Size (HashSetCoarseGrained.init 1 : HashSetCoarseGrained Nat) + 1) ∧
    ((HashSetStriped.Add (fun n => n) (HashSetStriped.init 1 : HashSetStriped Nat) 0).2 = true ∧
      0 ∈ (HashSetStriped.Add (fun n => n) (HashSetStriped.init 1 : HashSetStriped Nat) 0).1.table_.flatten ∧
      HashSetStriped.Size (HashSetStriped.Add (fun n => n) (HashSetStriped.init 1 : HashSetStriped Nat) 0).1 =
        HashSetStriped.Size (HashSetStriped.init 1 : HashSetStriped Nat) + 1) ∧
    ((HashSetRefinable.Add (fun n => n) (HashSetRefinable.init 1 : HashSetRefinable Nat) 0).2 = true ∧
      0 ∈ (HashSetRefinable.Add (fun n => n) (HashSetRefinable.init 1 : HashSetRefinable Nat) 0).1.table_.flatten ∧
      HashSetRefinable.Size (HashSetRefinable.Add (fun n => n) (HashSetRefinable.init 1 : HashSetRefinable Nat) 0).1 =
        HashSetRefinable.Size (HashSetRefinable.init 1 : HashSetRefinable Nat) + 1) :=
  ⟨((claim_C1_add_semantics (fun n => n) 1 (by decide)).1
      (HashSetSequential.init 1) 0 SeqReach.init).1 (by decide),
   ((claim_C1_add_semantics (fun n => n) 1 (by decide)).2.1
      (HashSetCoarseGrained.init 1) 0 CoarseReach.init).1 (by decide),
   ((claim_C1_add_semantics (fun n => n) 1 (by decide)).2.2.1
      (HashSetStriped.init 1) 0 StripedReach.init).1 (by decide),
   ((claim_C1_add_semantics (fun n => n) 1 (by decide)).2.2.2
      (HashSetRefinable.init 1) 0 RefinableReach.init).1 (by decide)⟩

/-- C6: for every strategy: on any state whatsoever, removing an element that
is not present (in particular on an empty set) returns false and leaves the
entire state unchanged (same table, every bucket unchanged, same size, same
capacity and locks); and on any reachable state, Remove(e) returns true
exactly when e was present, in which case e is afterwards absent and Size()
drops by one. -/
theorem claim_C6_remove_semantics (hash : α → Nat) (capacity : Nat)
    (hcap : 0 < capacity) :
    ((∀ (s : HashSetSequential α) (e : α), e ∉ s.table_.flatten →
        HashSetSequential.Remove hash s e = (s, false)) ∧
     (∀ (s : HashSetSequential α) (e : α), SeqReach hash capacity s →
        ((HashSetSequential.Remove hash s e).2 = true ↔ e ∈ s.table_.flatten) ∧
        (e ∈ s.table_.flatten →
          e ∉ (HashSetSequential.Remove hash s e).1.table_.flatten ∧
          HashSetSequential.Size (HashSetSequential.Remove hash s e).1 + 1 = HashSetSequential.Size s))) ∧
    ((∀ (s : HashSetCoarseGrained α) (e : α), e ∉ s.table_.flatten →
        HashSetCoarseGrained.Remove hash s e = (s, false)) ∧
     (∀ (s : HashSetCoarseGrained α) (e : α), CoarseReach hash capacity s →
        ((HashSetCoarseGrained.Remove hash s e).2 = true ↔ e ∈ s.table_.flatten) ∧
        (e ∈ s.table_.flatten →
          e ∉ (HashSetCoarseGrained.Remove hash s e).1.table_.flatten ∧
          HashSetCoarseGrained.Size (HashSetCoarseGrained.Remove hash s e).1 + 1 = HashSetCoarseGrained.Size s))) ∧
    ((∀ (s : HashSetStriped α) (e : α), e ∉ s.table_.flatten →
        HashSetStriped.Remove hash s e = (s, false)) ∧
     (∀ (s : HashSetStriped α) (e : α), StripedReach hash capacity s →
        ((HashSetStriped.Remove hash s e).2 = true ↔ e ∈ s.table_.flatten) ∧
        (e ∈ s.table_.flatten →
          e ∉ (HashSetStriped.Remove hash s e).1.table_.flatten ∧
          HashSetStriped.Size (HashSetStriped.Remove hash s e).1 + 1 = HashSetStriped.Size s))) ∧
    ((∀ (s : HashSetRefinable α) (e : α), e ∉ s.table_.flatten →
        HashSetRefinable.Remove hash s e = (s, false)) ∧
     (∀ (s : HashSetRefinable α) (e : α), RefinableReach hash capacity s →
        ((HashSetRefinable.Remove hash s e).2 = true ↔ e ∈ s.table_.flatten) ∧
        (e ∈ s.table_.flatten →
          e ∉ (HashSetRefinable.Remove hash s e).1.table_.flatten ∧
          HashSetRefinable.Size (HashSetRefinable.Remove hash s e).1 + 1 = HashSetRefinable.Size s))) := by
  refine ⟨?_, ?_, ?_, ?_⟩
  · refine ⟨fun s e hmem => seq_Remove_eq_of_not_mem hash s e hmem, ?_⟩
    intro s e hr
    have hinv := seq_reach_inv hash capacity hcap s hr
    obtain ⟨_, hiff, _, hrem⟩ := seq_Remove_spec hash s e hinv
    refine ⟨hiff, fun hmem => ?_⟩
    obtain ⟨hgone, _, hsz⟩ := hrem hmem
    exact ⟨hgone, hsz⟩
  · refine ⟨fun s e hmem => coarse_Remove_eq_of_not_mem hash s e hmem, ?_⟩
    intro s e hr
    have hinv := coarse_reach_inv hash capacity hcap s hr
    obtain ⟨_, hiff, _, hrem⟩ := coarse_Remove_spec hash s e hinv
    refine ⟨hiff, fun hmem => ?_⟩
    obtain ⟨hgone, _, hsz⟩ := hrem hmem
    exact ⟨hgone, hsz⟩
  · refine ⟨fun s e hmem => striped_Remove_eq_of_not_mem hash s e hmem, ?_⟩
    intro s e hr
    have hinv := striped_reach_inv hash capacity hcap s hr
    obtain ⟨_, hiff, _, hrem⟩ := striped_Remove_spec hash s e hinv
    refine ⟨hiff, fun hmem => ?_⟩
    obtain ⟨hgone, _, hsz⟩ := hrem hmem
    exact ⟨hgone, hsz⟩
  · refine ⟨fun s e hmem => refinable_Remove_eq_of_not_mem hash s e hmem, ?_⟩
    intro s e hr
    have hinv := refinable_reach_inv hash capacity hcap s hr
    obtain ⟨_, hiff, _, hrem⟩ := refinable_Remove_spec hash s e hinv
    refine ⟨hiff, fun hmem => ?_⟩
    obtain ⟨hgone, _, hsz⟩ := hrem hmem
    exact ⟨hgone, hsz⟩

/-- C6, witness: removing 0 from a fresh (empty) one-bucket set is a no-op
returning false, in all four strategies. -/
theorem claim_C6_witness :
    HashSetSequential.Remove (fun n => n) (HashSetSequential.init 1 : HashSetSequential Nat) 0 =
      (HashSetSequential.init 1, false) ∧
    HashSetCoarseGrained.Remove (fun n => n) (HashSetCoarseGrained.init 1 : HashSetCoarseGrained Nat) 0 =
      (HashSetCoarseGrained.init 1, false) ∧
    HashSetStriped.Remove (fun n => n) (HashSetStriped.init 1 : HashSetStriped Nat) 0 =
      (HashSetStriped.init 1, false) ∧
    ((HashSetRefinable.Remove (fun n => n) (HashSetRefinable.init 1 : HashSetRefinable Nat) 0).2 = true ↔
      0 ∈ (HashSetRefinable.init 1 : HashSetRefinable Nat).table_.flatten) :=
  ⟨(claim_C6_remove_semantics (fun n => n) 1 (by decide)).1.1
      (HashSetSequential.init 1) 0 (by decide),
   (claim_C6_remove_semantics (fun n => n) 1 (by decide)).2.1.1
      (HashSetCoarseGrained.init 1) 0 (by decide),
   (claim_C6_remove_semantics (fun n => n) 1 (by decide)).2.2.1.1
      (HashSetStriped.init 1) 0 (by decide),
   ((claim_C6_remove_semantics (fun n => n) 1 (by decide)).2.2.2.2
      (HashSetRefinable.init 1) 0 RefinableReach.init).1⟩


end HashSetVerify
